import Mathlib

/-!
Shallow embedding of the invest-agent evaluation core.

Dates and timestamps are modelled as natural numbers (a timestamp `t` has
calendar date `t / 86400`), numeric values as rationals, and nullable columns
as `Option`.  Each definition is translated from the named Python source
function; SQL queries are translated clause by clause.
-/

namespace InvestAgent

/-- Python slice `l[-n:]`: the last `n` elements (the whole list when `n` is
at least the length). -/
def lastN (n : Nat) (l : List α) : List α := l.drop (l.length - n)

theorem lastN_length (n : Nat) (l : List α) : (lastN n l).length = min n l.length := by
  simp [lastN]
  omega

theorem lastN_subset (n : Nat) (l : List α) : ∀ x ∈ lastN n l, x ∈ l :=
  fun _ hx => List.drop_subset _ l hx

/-- Auxiliary accumulator for `dedupFirst`. -/
def dedupAux [DecidableEq α] : List α → List α → List α
  | acc, [] => acc
  | acc, x :: xs => dedupAux (if x ∈ acc then acc else acc ++ [x]) xs

/-- Keep only the first occurrence of each element, preserving order.  This is
the key order of a Python `dict` / `defaultdict` built by insertion. -/
def dedupFirst [DecidableEq α] (l : List α) : List α := dedupAux [] l

theorem mem_dedupAux [DecidableEq α] (l : List α) :
    ∀ acc y, (y ∈ dedupAux acc l ↔ y ∈ acc ∨ y ∈ l) := by
  induction l with
  | nil => intro acc y; simp [dedupAux]
  | cons x xs ih =>
      intro acc y
      simp only [dedupAux]
      by_cases hc : x ∈ acc
      · rw [if_pos hc, ih]
        constructor
        · rintro (h | h)
          · exact Or.inl h
          · exact Or.inr (List.mem_cons_of_mem _ h)
        · rintro (h | h)
          · exact Or.inl h
          · rcases List.mem_cons.mp h with rfl | h
            · exact Or.inl hc
            · exact Or.inr h
      · rw [if_neg hc, ih]
        simp only [List.mem_append, List.mem_singleton, List.mem_cons]
        tauto

theorem mem_dedupFirst [DecidableEq α] (l : List α) (y : α) :
    y ∈ dedupFirst l ↔ y ∈ l := by
  rw [dedupFirst, mem_dedupAux]
  simp

theorem nodup_dedupAux [DecidableEq α] (l : List α) :
    ∀ acc, acc.Nodup → (dedupAux acc l).Nodup := by
  induction l with
  | nil => intro acc h; exact h
  | cons x xs ih =>
      intro acc h
      simp only [dedupAux]
      by_cases hc : x ∈ acc
      · rw [if_pos hc]; exact ih acc h
      · rw [if_neg hc]
        refine ih _ ?_
        refine List.Nodup.append h (List.nodup_singleton x) ?_
        intro a ha hb
        rcases List.mem_singleton.mp hb with rfl
        exact hc ha

theorem nodup_dedupFirst [DecidableEq α] (l : List α) : (dedupFirst l).Nodup :=
  nodup_dedupAux l [] List.nodup_nil

/-- Insert for a stable descending insertion sort by key: `x` is placed before
the first element whose key does not exceed it, so equal keys keep their
original relative order (the behaviour of Python `sorted(..., reverse=True)`,
which is stable). -/
def insertDescBy [LinearOrder β] (key : α → β) (x : α) : List α → List α
  | [] => [x]
  | y :: ys => if key y ≤ key x then x :: y :: ys else y :: insertDescBy key x ys

/-- Stable descending sort by key (model of Python `sorted(key=..., reverse=True)`). -/
def sortDescBy [LinearOrder β] (key : α → β) (l : List α) : List α :=
  l.foldr (insertDescBy key) []

theorem insertDescBy_perm [LinearOrder β] (key : α → β) (x : α) (l : List α) :
    List.Perm (insertDescBy key x l) (x :: l) := by
  induction l with
  | nil => simp [insertDescBy]
  | cons y ys ih =>
      simp only [insertDescBy]
      by_cases h : key y ≤ key x
      · rw [if_pos h]
      · rw [if_neg h]
        exact (List.Perm.cons y ih).trans (List.Perm.swap x y ys)

theorem sortDescBy_perm [LinearOrder β] (key : α → β) (l : List α) :
    List.Perm (sortDescBy key l) l := by
  induction l with
  | nil => simp [sortDescBy]
  | cons x xs ih =>
      simp only [sortDescBy, List.foldr]
      exact (insertDescBy_perm key x _).trans (List.Perm.cons x ih)

theorem mem_sortDescBy [LinearOrder β] (key : α → β) (l : List α) (x : α) :
    x ∈ sortDescBy key l ↔ x ∈ l :=
  (sortDescBy_perm key l).mem_iff

theorem insertDescBy_pairwise [LinearOrder β] (key : α → β) (x : α) (l : List α)
    (h : l.Pairwise (fun a b => key b ≤ key a)) :
    (insertDescBy key x l).Pairwise (fun a b => key b ≤ key a) := by
  induction l with
  | nil => simp [insertDescBy]
  | cons y ys ih =>
      simp only [insertDescBy]
      rcases List.pairwise_cons.mp h with ⟨hy, hys⟩
      by_cases hk : key y ≤ key x
      · rw [if_pos hk]
        refine List.pairwise_cons.mpr ⟨?_, h⟩
        intro b hb
        rcases List.mem_cons.mp hb with rfl | hb
        · exact hk
        · exact le_trans (hy b hb) hk
      · rw [if_neg hk]
        refine List.pairwise_cons.mpr ⟨?_, ih hys⟩
        intro b hb
        have h1 := (insertDescBy_perm key x ys).mem_iff.mp hb
        rcases List.mem_cons.mp h1 with rfl | hb2
        · exact le_of_not_le hk
        · exact hy b hb2

theorem sortDescBy_pairwise [LinearOrder β] (key : α → β) (l : List α) :
    (sortDescBy key l).Pairwise (fun a b => key b ≤ key a) := by
  induction l with
  | nil => simp [sortDescBy]
  | cons x xs ih => exact insertDescBy_pairwise key x _ ih

/-- Python `max(l, key=key)` on a nonempty list: the first element attaining
the maximal key (later elements replace the champion only on a strictly
greater key). -/
def pyMaxBy [LinearOrder β] (key : α → β) : List α → Option α
  | [] => none
  | x :: xs => some (xs.foldl (fun b y => if key b < key y then y else b) x)

/-- Python `round` on a rational value: round half to even (banker rounding),
the behaviour of `round(float)` modelled in exact arithmetic. -/
def pyRound (q : ℚ) : ℤ :=
  let f := ⌊q⌋
  let r := q - (f : ℚ)
  if r < 1/2 then f
  else if 1/2 < r then f + 1
  else if f % 2 = 0 then f else f + 1

/-- A row of the `series_vintages` table (src/app/models.py, `SeriesVintage`).
Timestamps (`publication_date`, `fetched_at`) are naturals; their calendar
date is `t / 86400`. -/
structure SeriesRow where
  series_id : String
  observation_date : Nat
  vintage_date : Option Nat
  publication_date : Option Nat
  fetched_at : Nat
  vintage_id : Nat
  value_numeric : ℚ
  units : String
  scale : ℚ
  source : String
  source_url : Option String
  source_version : Option String
deriving DecidableEq

/-- The `::date` cast applied to a timestamp. -/
def dateOfTs (t : Nat) : Nat := t / 86400

/-- SQL `COALESCE(vintage_date, publication_date::date, fetched_at::date)`
used by every read path in src/app/queries.py. -/
def coalesce_key (r : SeriesRow) : Nat :=
  match r.vintage_date with
  | some d => d
  | none =>
      match r.publication_date with
      | some p => dateOfTs p
      | none => dateOfTs r.fetched_at

/-- Row `a` sorts strictly before row `b` under
`ORDER BY coalesce_key DESC, fetched_at DESC`. -/
def better_vintage (a b : SeriesRow) : Bool :=
  decide (coalesce_key b < coalesce_key a) ||
    (decide (coalesce_key a = coalesce_key b) && decide (b.fetched_at < a.fetched_at))

/-- The row `DISTINCT ON (series_id, observation_date)` keeps within one
observation-date partition: the first row of the partition in the
`ORDER BY coalesce_key DESC, fetched_at DESC` order. -/
def best_row : List SeriesRow → Option SeriesRow
  | [] => none
  | r :: rs =>
      match best_row rs with
      | none => some r
      | some b => if better_vintage b r then some b else some r

/-- The WHERE clause of `get_as_of_series_points`:
`series_id = :sid AND fetched_at <= :as_of`. -/
def asOfFiltered (rows : List SeriesRow) (sid : String) (asOf : Nat) : List SeriesRow :=
  rows.filter (fun r => r.series_id == sid && decide (r.fetched_at ≤ asOf))

/-- Embedding of `get_as_of_series_points` (src/app/queries.py lines 78-103):
filter to `series_id = sid AND fetched_at <= as_of`, keep one best-known row
per observation date (`DISTINCT ON` with
`ORDER BY coalesce_key DESC, fetched_at DESC`), order by observation date
descending, keep at most `lim` rows, and return them ascending by
observation date. -/
def get_as_of_series_points (rows : List SeriesRow) (sid : String) (asOf : Nat)
    (lim : Nat) : List SeriesRow :=
  ((sortDescBy (fun d => d)
      (dedupFirst ((asOfFiltered rows sid asOf).map (·.observation_date)))).take lim).reverse.filterMap
    (fun d => best_row ((asOfFiltered rows sid asOf).filter (fun r => r.observation_date == d)))

/-- Best-known recency preorder: `a` is no more recent than `b` under the
lexicographic `(coalesce_key, fetched_at)` comparison. -/
def recLe (a b : SeriesRow) : Prop :=
  coalesce_key a < coalesce_key b ∨
    (coalesce_key a = coalesce_key b ∧ a.fetched_at ≤ b.fetched_at)

instance : DecidablePred fun p : SeriesRow × SeriesRow => recLe p.1 p.2 := by
  intro p
  unfold recLe
  infer_instance

theorem better_vintage_false_recLe {a b : SeriesRow} (h : better_vintage b a = false) :
    recLe b a := by
  unfold better_vintage at h
  simp only [Bool.or_eq_false_iff, Bool.and_eq_false_iff, decide_eq_false_iff_not] at h
  rcases h with ⟨h1, h2⟩
  rcases Nat.lt_or_ge (coalesce_key b) (coalesce_key a) with hlt | hge
  · exact Or.inl hlt
  · have heq : coalesce_key b = coalesce_key a := le_antisymm (le_of_not_lt h1) hge
    rcases h2 with h2 | h2
    · exact absurd heq h2
    · exact Or.inr ⟨heq, le_of_not_lt h2⟩

theorem better_vintage_true_recLe {a b : SeriesRow} (h : better_vintage b a = true) :
    recLe a b := by
  unfold better_vintage at h
  simp only [Bool.or_eq_true, Bool.and_eq_true, decide_eq_true_eq] at h
  rcases h with h | ⟨h1, h2⟩
  · exact Or.inl h
  · exact Or.inr ⟨h1.symm, le_of_lt h2⟩

theorem recLe_trans {a b c : SeriesRow} (hab : recLe a b) (hbc : recLe b c) : recLe a c := by
  rcases hab with h1 | ⟨h1, h2⟩
  · rcases hbc with h3 | ⟨h3, h4⟩
    · exact Or.inl (lt_trans h1 h3)
    · exact Or.inl (h3 ▸ h1)
  · rcases hbc with h3 | ⟨h3, h4⟩
    · exact Or.inl (h1 ▸ h3)
    · exact Or.inr ⟨h1.trans h3, le_trans h2 h4⟩

theorem best_row_cons (r : SeriesRow) (rs : List SeriesRow) :
    best_row (r :: rs) =
      match best_row rs with
      | none => some r
      | some b => if better_vintage b r then some b else some r := rfl

theorem best_row_spec {l : List SeriesRow} {b : SeriesRow} (h : best_row l = some b) :
    b ∈ l ∧ ∀ x ∈ l, recLe x b := by
  induction l generalizing b with
  | nil => simp [best_row] at h
  | cons r rs ih =>
      rw [best_row_cons] at h
      cases hrec : best_row rs with
      | none =>
          rw [hrec] at h
          replace h : some r = some b := h
          simp only [Option.some.injEq] at h
          subst h
          refine ⟨List.mem_cons_self _ _, ?_⟩
          intro x hx
          rcases List.mem_cons.mp hx with rfl | hx
          · exact Or.inr ⟨rfl, le_refl _⟩
          · cases rs with
            | nil => cases hx
            | cons y ys =>
                exfalso
                rw [best_row_cons] at hrec
                cases h2 : best_row ys with
                | none => rw [h2] at hrec; exact Option.noConfusion hrec
                | some c =>
                    rw [h2] at hrec
                    replace hrec : (if better_vintage c y then some c else some y) = none := hrec
                    by_cases hb : better_vintage c y = true
                    · rw [if_pos hb] at hrec; exact Option.noConfusion hrec
                    · rw [if_neg hb] at hrec; exact Option.noConfusion hrec
      | some c =>
          rw [hrec] at h
          replace h : (if better_vintage c r then some c else some r) = some b := h
          rcases ih hrec with ⟨hcmem, hcmax⟩
          by_cases hb : better_vintage c r = true
          · rw [if_pos hb] at h
            simp only [Option.some.injEq] at h
            subst h
            refine ⟨List.mem_cons_of_mem r hcmem, ?_⟩
            intro x hx
            rcases List.mem_cons.mp hx with rfl | hx
            · exact better_vintage_true_recLe hb
            · exact hcmax x hx
          · rw [if_neg hb] at h
            simp only [Option.some.injEq] at h
            subst h
            refine ⟨List.mem_cons_self _ _, ?_⟩
            intro x hx
            rcases List.mem_cons.mp hx with rfl | hx
            · exact Or.inr ⟨rfl, le_refl _⟩
            · exact recLe_trans (hcmax x hx)
                (better_vintage_false_recLe (Bool.eq_false_iff.mpr hb))

theorem best_row_isSome {l : List SeriesRow} (h : l ≠ []) : ∃ b, best_row l = some b := by
  cases l with
  | nil => exact absurd rfl h
  | cons r rs =>
      rw [best_row_cons]
      cases hrec : best_row rs with
      | none => exact ⟨r, rfl⟩
      | some c =>
          by_cases hb : better_vintage c r = true
          · refine ⟨c, ?_⟩
            show (if better_vintage c r then some c else some r) = some c
            rw [if_pos hb]
          · refine ⟨r, ?_⟩
            show (if better_vintage c r then some c else some r) = some r
            rw [if_neg hb]

/-- A row is eligible for the fetched-mode as-of read of `(sid, asOf)`. -/
def eligible (rows : List SeriesRow) (sid : String) (asOf : Nat) (q : SeriesRow) : Prop :=
  q ∈ rows ∧ q.series_id = sid ∧ q.fetched_at ≤ asOf

theorem mem_asOfFiltered {rows : List SeriesRow} {sid : String} {asOf : Nat} {q : SeriesRow} :
    q ∈ asOfFiltered rows sid asOf ↔ eligible rows sid asOf q := by
  unfold asOfFiltered eligible
  rw [List.mem_filter]
  simp only [Bool.and_eq_true, beq_iff_eq, decide_eq_true_eq, and_assoc]

/-- C1, amended.  Every row returned by the fetched-mode as-of read is an
eligible row of the store that is maximal for its observation date in the
lexicographic `(coalesce_key, fetched_at)` order (the best-known recency
rule); the output is strictly ascending in observation date; and whenever the
number of eligible observation dates is within the limit, every eligible
observation date is represented in the output. -/
theorem get_as_of_series_points_best_known
    (rows : List SeriesRow) (sid : String) (asOf lim : Nat) :
    (∀ r ∈ get_as_of_series_points rows sid asOf lim,
        eligible rows sid asOf r ∧
        ∀ q, eligible rows sid asOf q → q.observation_date = r.observation_date → recLe q r)
    ∧ (get_as_of_series_points rows sid asOf lim).Pairwise
        (fun a b => a.observation_date < b.observation_date)
    ∧ ((dedupFirst ((asOfFiltered rows sid asOf).map (·.observation_date))).length ≤ lim →
        ∀ q, eligible rows sid asOf q →
          ∃ r ∈ get_as_of_series_points rows sid asOf lim,
            r.observation_date = q.observation_date) := by
  refine ⟨?_, ?_, ?_⟩
  · intro r hr
    rcases List.mem_filterMap.mp hr with ⟨d, _, hbest⟩
    rcases best_row_spec hbest with ⟨hrmem, hrmax⟩
    rcases List.mem_filter.mp hrmem with ⟨hrfil, hrobs⟩
    have hrE := mem_asOfFiltered.mp hrfil
    refine ⟨hrE, ?_⟩
    intro q hq hobs
    have hqfil : q ∈ asOfFiltered rows sid asOf := mem_asOfFiltered.mpr hq
    have hd : r.observation_date = d := by simpa using hrobs
    have hq2 : q ∈ (asOfFiltered rows sid asOf).filter
        (fun r => r.observation_date == d) := by
      refine List.mem_filter.mpr ⟨hqfil, ?_⟩
      simp [hobs, hd]
    exact hrmax q hq2
  · unfold get_as_of_series_points
    have hnodup : (sortDescBy (fun d => d)
        (dedupFirst ((asOfFiltered rows sid asOf).map (·.observation_date)))).Nodup :=
      (sortDescBy_perm _ _).nodup_iff.mpr (nodup_dedupFirst _)
    have hsorted := sortDescBy_pairwise (fun d : Nat => d)
        (dedupFirst ((asOfFiltered rows sid asOf).map (·.observation_date)))
    have hdesc : (sortDescBy (fun d : Nat => d)
        (dedupFirst ((asOfFiltered rows sid asOf).map (·.observation_date)))).Pairwise
        (fun a b => b < a) := by
      have hand := List.Pairwise.and hsorted hnodup
      exact hand.imp (fun hab => lt_of_le_of_ne hab.1 (Ne.symm hab.2))
    have htake := hdesc.sublist (List.take_sublist lim _)
    have hrev : ((sortDescBy (fun d : Nat => d)
        (dedupFirst ((asOfFiltered rows sid asOf).map (·.observation_date)))).take lim).reverse.Pairwise
        (fun a b => a < b) := List.pairwise_reverse.mpr htake
    refine List.Pairwise.filterMap _ ?_ hrev
    intro a a2 hlt b hb b2 hb2
    have hbspec := best_row_spec (Option.mem_def.mp hb)
    have hb2spec := best_row_spec (Option.mem_def.mp hb2)
    have h1 : b.observation_date = a := by
      have := (List.mem_filter.mp hbspec.1).2
      simpa using this
    have h2 : b2.observation_date = a2 := by
      have := (List.mem_filter.mp hb2spec.1).2
      simpa using this
    rw [h1, h2]
    exact hlt
  · intro hlim q hq
    have hqfil : q ∈ asOfFiltered rows sid asOf := mem_asOfFiltered.mpr hq
    have hdmem : q.observation_date ∈
        dedupFirst ((asOfFiltered rows sid asOf).map (·.observation_date)) :=
      (mem_dedupFirst _ _).mpr (List.mem_map_of_mem _ hqfil)
    have hlen : (sortDescBy (fun d : Nat => d)
        (dedupFirst ((asOfFiltered rows sid asOf).map (·.observation_date)))).length ≤ lim := by
      rwa [(sortDescBy_perm _ _).length_eq]
    have htake_eq := List.take_of_length_le hlen
    have hdmem2 : q.observation_date ∈ ((sortDescBy (fun d : Nat => d)
        (dedupFirst ((asOfFiltered rows sid asOf).map (·.observation_date)))).take lim).reverse := by
      rw [htake_eq, List.mem_reverse]
      exact (mem_sortDescBy _ _ _).mpr hdmem
    have hne : (asOfFiltered rows sid asOf).filter
        (fun r => r.observation_date == q.observation_date) ≠ [] := by
      intro hemp
      have : q ∈ (asOfFiltered rows sid asOf).filter
          (fun r => r.observation_date == q.observation_date) :=
        List.mem_filter.mpr ⟨hqfil, by simp⟩
      rw [hemp] at this
      cases this
    rcases best_row_isSome hne with ⟨b, hb⟩
    refine ⟨b, ?_, ?_⟩
    · exact List.mem_filterMap.mpr ⟨q.observation_date, hdmem2, hb⟩
    · have := (List.mem_filter.mp (best_row_spec hb).1).2
      simpa using this

/-- Two vintages of the same observation: `c1rowB` is fetched later, but
`c1rowA` has the more recent `COALESCE` key. -/
def c1rowA : SeriesRow :=
  { series_id := "X", observation_date := 10, vintage_date := some 50,
    publication_date := none, fetched_at := 100, vintage_id := 1,
    value_numeric := 1, units := "USD", scale := 1, source := "FRED",
    source_url := none, source_version := none }

def c1rowB : SeriesRow :=
  { series_id := "X", observation_date := 10, vintage_date := some 40,
    publication_date := none, fetched_at := 200, vintage_id := 2,
    value_numeric := 2, units := "USD", scale := 1, source := "FRED",
    source_url := none, source_version := none }

/-- C1 as stated is false: the query does not return, for an observation
date, the eligible row with the greatest `fetched_at`.  Here both vintages
of observation 10 are fetched before `as_of = 1000`, the returned row has
`fetched_at = 100`, and an eligible row of the same observation date has
`fetched_at = 200` (the `COALESCE` key is compared first, `fetched_at` only
breaks ties). -/
theorem get_as_of_series_points_fetched_first_counterexample :
    get_as_of_series_points [c1rowA, c1rowB] "X" 1000 40 = [c1rowA] ∧
    c1rowB ∈ ([c1rowA, c1rowB] : List SeriesRow) ∧
    c1rowB.series_id = "X" ∧ c1rowB.fetched_at ≤ 1000 ∧
    c1rowB.observation_date = c1rowA.observation_date ∧
    c1rowA.fetched_at < c1rowB.fetched_at := by
  refine ⟨?_, by simp, rfl, by decide, rfl, by decide⟩
  rfl

/-! ## Ingest: `upsert_series_vintages` (src/app/ingest.py lines 12-62) -/

/-- One element of the `rows` argument of `upsert_series_vintages`.
`fetched_at` is optional; the code substitutes `datetime.now(UTC)` when it is
missing. -/
structure InRow where
  observation_date : Nat
  vintage_date : Option Nat
  publication_date : Option Nat
  fetched_at : Option Nat
  value_numeric : ℚ
deriving DecidableEq

/-- The keyword arguments of one `upsert_series_vintages` call, together with
the clock value `now` used for rows without `fetched_at`. -/
structure UpsertCtx where
  series_id : String
  units : String
  scale : ℚ
  source : String
  source_url : Option String
  source_version : Option String
  now : Nat
deriving DecidableEq

/-- The unique key of a stored row:
`(series_id, observation_date, vintage_date, publication_date)`; absent
vintage and publication dates compare equal (`IS NULL` matching). -/
def rowKey (s : SeriesRow) : String × Nat × Option Nat × Option Nat :=
  (s.series_id, s.observation_date, s.vintage_date, s.publication_date)

/-- The key an upsert call writes. -/
def inKey (ctx : UpsertCtx) (r : InRow) : String × Nat × Option Nat × Option Nat :=
  (ctx.series_id, r.observation_date, r.vintage_date, r.publication_date)

/-- The filter list built in `upsert_series_vintages`: equality on
`series_id` and `observation_date`, with `IS NULL` used for absent vintage
and publication dates. -/
def sameKey (sid : String) (r : InRow) (s : SeriesRow) : Bool :=
  s.series_id == sid && s.observation_date == r.observation_date &&
    s.vintage_date == r.vintage_date && s.publication_date == r.publication_date

/-- The in-place mutation of an existing row: rewrite `value_numeric`,
`units`, `scale` and the `source*` fields; everything else (in particular
`fetched_at`) is kept. -/
def applyUpdate (ctx : UpsertCtx) (r : InRow) (s : SeriesRow) : SeriesRow :=
  { s with
    value_numeric := r.value_numeric
    units := ctx.units
    scale := ctx.scale
    source := ctx.source
    source_url := ctx.source_url
    source_version := ctx.source_version }

/-- The freshly inserted row of the `else` branch. -/
def newRow (ctx : UpsertCtx) (r : InRow) : SeriesRow :=
  { series_id := ctx.series_id, observation_date := r.observation_date,
    vintage_date := r.vintage_date, publication_date := r.publication_date,
    fetched_at := r.fetched_at.getD ctx.now, vintage_id := 0,
    value_numeric := r.value_numeric, units := ctx.units, scale := ctx.scale,
    source := ctx.source, source_url := ctx.source_url,
    source_version := ctx.source_version }

/-- Replace the first element satisfying `p` (the `.first()` row of the
query) by its image under `f`. -/
def updateFirst (p : SeriesRow → Bool) (f : SeriesRow → SeriesRow) :
    List SeriesRow → List SeriesRow
  | [] => []
  | s :: ss => if p s then f s :: ss else s :: updateFirst p f ss

/-- One iteration of the loop body of `upsert_series_vintages`: update the
existing row for the key if one exists, otherwise append a new row. -/
def upsertOne (ctx : UpsertCtx) (store : List SeriesRow) (r : InRow) : List SeriesRow :=
  if store.any (sameKey ctx.series_id r) then
    updateFirst (sameKey ctx.series_id r) (applyUpdate ctx r) store
  else store ++ [newRow ctx r]

/-- Embedding of `upsert_series_vintages`: fold the loop body over `rows`. -/
def upsert_series_vintages (ctx : UpsertCtx) (store : List SeriesRow)
    (rows : List InRow) : List SeriesRow :=
  rows.foldl (upsertOne ctx) store

/-- Apply an arbitrary sequence of single-row upsert calls. -/
def applyUpserts (store : List SeriesRow) : List (UpsertCtx × InRow) → List SeriesRow
  | [] => store
  | c :: cs => applyUpserts (upsertOne c.1 store c.2) cs

/-- The last call of a sequence writing the key `k`. -/
def lastWrite (k : String × Nat × Option Nat × Option Nat)
    (calls : List (UpsertCtx × InRow)) : Option (UpsertCtx × InRow) :=
  calls.foldl (fun acc c => if inKey c.1 c.2 = k then some c else acc) none

/-- The stored rows for a key. -/
def rowsWithKey (k : String × Nat × Option Nat × Option Nat)
    (store : List SeriesRow) : List SeriesRow :=
  store.filter (fun s => decide (rowKey s = k))

/-- The unique-key invariant of the `series_vintages` table. -/
def keyUnique (store : List SeriesRow) : Prop :=
  ∀ k, (rowsWithKey k store).length ≤ 1

theorem sameKey_iff_rowKey {sid : String} {r : InRow} {s : SeriesRow} :
    sameKey sid r s = true ↔ rowKey s = inKey ⟨sid, "", 0, "", none, none, 0⟩ r := by
  unfold sameKey rowKey inKey
  simp only [Bool.and_eq_true, beq_iff_eq, Prod.mk.injEq]
  tauto

theorem sameKey_iff_rowKey_ctx {ctx : UpsertCtx} {r : InRow} {s : SeriesRow} :
    sameKey ctx.series_id r s = true ↔ rowKey s = inKey ctx r := by
  unfold sameKey rowKey inKey
  simp only [Bool.and_eq_true, beq_iff_eq, Prod.mk.injEq]
  tauto

theorem rowKey_applyUpdate (ctx : UpsertCtx) (r : InRow) (s : SeriesRow) :
    rowKey (applyUpdate ctx r s) = rowKey s := rfl

theorem rowKey_newRow (ctx : UpsertCtx) (r : InRow) :
    rowKey (newRow ctx r) = inKey ctx r := rfl

theorem sameKey_newRow (ctx : UpsertCtx) (r : InRow) :
    sameKey ctx.series_id r (newRow ctx r) = true := by
  rw [sameKey_iff_rowKey_ctx, rowKey_newRow]

theorem sameKey_applyUpdate (ctx : UpsertCtx) (r r2 : InRow) (s : SeriesRow) :
    sameKey ctx.series_id r (applyUpdate ctx r2 s) = sameKey ctx.series_id r s := rfl

/-- Decomposition of `updateFirst` when a match exists. -/
theorem updateFirst_spec {p : SeriesRow → Bool} {f : SeriesRow → SeriesRow}
    {l : List SeriesRow} (h : l.any p = true) :
    ∃ l₁ s l₂, l = l₁ ++ s :: l₂ ∧ (∀ x ∈ l₁, p x = false) ∧ p s = true ∧
      updateFirst p f l = l₁ ++ f s :: l₂ := by
  induction l with
  | nil => simp at h
  | cons a as ih =>
      by_cases hp : p a = true
      · exact ⟨[], a, as, rfl, by simp, hp, by simp [updateFirst, hp]⟩
      · have h2 : as.any p = true := by
          rcases List.any_eq_true.mp h with ⟨x, hx, hpx⟩
          rcases List.mem_cons.mp hx with rfl | hx
          · exact absurd hpx hp
          · exact List.any_eq_true.mpr ⟨x, hx, hpx⟩
        rcases ih h2 with ⟨l₁, s, l₂, heq, hl₁, hps, hupd⟩
        refine ⟨a :: l₁, s, l₂, by rw [heq]; rfl, ?_, hps, ?_⟩
        · intro x hx
          rcases List.mem_cons.mp hx with rfl | hx
          · exact Bool.eq_false_iff.mpr hp
          · exact hl₁ x hx
        · simp [updateFirst, hp, hupd]

theorem updateFirst_of_not_any {p : SeriesRow → Bool} {f : SeriesRow → SeriesRow}
    {l : List SeriesRow} (h : ∀ x ∈ l, p x = false) : updateFirst p f l = l := by
  induction l with
  | nil => rfl
  | cons a as ih =>
      have hpa := h a (List.mem_cons_self a as)
      simp only [updateFirst, hpa]
      simp only [Bool.false_eq_true, if_false, List.cons.injEq, true_and]
      exact ih fun x hx => h x (List.mem_cons_of_mem a hx)

theorem rowsWithKey_append (k : String × Nat × Option Nat × Option Nat)
    (l₁ l₂ : List SeriesRow) :
    rowsWithKey k (l₁ ++ l₂) = rowsWithKey k l₁ ++ rowsWithKey k l₂ := by
  unfold rowsWithKey
  rw [List.filter_append]

theorem rowsWithKey_cons_of_eq {k : String × Nat × Option Nat × Option Nat}
    {s : SeriesRow} (h : rowKey s = k) (l : List SeriesRow) :
    rowsWithKey k (s :: l) = s :: rowsWithKey k l := by
  simp [rowsWithKey, List.filter_cons, h]

theorem rowsWithKey_cons_of_ne {k : String × Nat × Option Nat × Option Nat}
    {s : SeriesRow} (h : rowKey s ≠ k) (l : List SeriesRow) :
    rowsWithKey k (s :: l) = rowsWithKey k l := by
  simp [rowsWithKey, List.filter_cons, h]

/-- An upsert for a different key leaves the rows of key `k` unchanged. -/
theorem rowsWithKey_upsertOne_ne {ctx : UpsertCtx} {r : InRow}
    {k : String × Nat × Option Nat × Option Nat} (store : List SeriesRow)
    (hne : inKey ctx r ≠ k) :
    rowsWithKey k (upsertOne ctx store r) = rowsWithKey k store := by
  unfold upsertOne
  by_cases hany : store.any (sameKey ctx.series_id r) = true
  · rw [if_pos hany]
    rcases updateFirst_spec (f := applyUpdate ctx r) hany with ⟨l₁, s, l₂, heq, _, hps, hupd⟩
    have hkey : rowKey s = inKey ctx r := sameKey_iff_rowKey_ctx.mp hps
    have h1 : rowKey (applyUpdate ctx r s) ≠ k := by rw [rowKey_applyUpdate, hkey]; exact hne
    have h2 : rowKey s ≠ k := by rw [hkey]; exact hne
    rw [hupd, heq, rowsWithKey_append, rowsWithKey_append,
      rowsWithKey_cons_of_ne h1, rowsWithKey_cons_of_ne h2]
  · rw [if_neg hany, rowsWithKey_append]
    have h1 : rowsWithKey k [newRow ctx r] = [] := by
      have : rowKey (newRow ctx r) ≠ k := by rw [rowKey_newRow]; exact hne
      rw [rowsWithKey_cons_of_ne this]
      rfl
    rw [h1, List.append_nil]

/-- An upsert leaves exactly one row for its own key, carrying the written
values. -/
theorem rowsWithKey_upsertOne_eq {ctx : UpsertCtx} {r : InRow} {store : List SeriesRow}
    (hwf : keyUnique store) :
    ∃ s, rowsWithKey (inKey ctx r) (upsertOne ctx store r) = [s] ∧
      s.value_numeric = r.value_numeric ∧ s.units = ctx.units ∧ s.scale = ctx.scale ∧
      s.source = ctx.source ∧ s.source_url = ctx.source_url ∧
      s.source_version = ctx.source_version := by
  unfold upsertOne
  by_cases hany : store.any (sameKey ctx.series_id r) = true
  · rw [if_pos hany]
    rcases updateFirst_spec (f := applyUpdate ctx r) hany with ⟨l₁, s, l₂, heq, hl₁, hps, hupd⟩
    have hkey : rowKey s = inKey ctx r := sameKey_iff_rowKey_ctx.mp hps
    refine ⟨applyUpdate ctx r s, ?_, rfl, rfl, rfl, rfl, rfl, rfl⟩
    rw [hupd, rowsWithKey_append]
    have h1 : rowsWithKey (inKey ctx r) l₁ = [] := by
      unfold rowsWithKey
      rw [List.filter_eq_nil_iff]
      intro x hx
      have hnk : rowKey x ≠ inKey ctx r := by
        intro hk
        have : sameKey ctx.series_id r x = true := sameKey_iff_rowKey_ctx.mpr hk
        rw [hl₁ x hx] at this
        cases this
      simpa using hnk
    have h2 : rowsWithKey (inKey ctx r) l₂ = [] := by
      have hlen := hwf (inKey ctx r)
      rw [heq, rowsWithKey_append, h1, rowsWithKey_cons_of_eq hkey] at hlen
      simp only [List.nil_append, List.length_cons] at hlen
      have : (rowsWithKey (inKey ctx r) l₂).length = 0 := by omega
      exact List.length_eq_zero.mp this
    have hupdkey : rowKey (applyUpdate ctx r s) = inKey ctx r := by
      rw [rowKey_applyUpdate, hkey]
    rw [h1, rowsWithKey_cons_of_eq hupdkey, h2]
    rfl
  · rw [if_neg hany]
    refine ⟨newRow ctx r, ?_, rfl, rfl, rfl, rfl, rfl, rfl⟩
    rw [rowsWithKey_append]
    have h1 : rowsWithKey (inKey ctx r) store = [] := by
      unfold rowsWithKey
      rw [List.filter_eq_nil_iff]
      intro x hx
      have hnot := List.any_eq_true.not.mp hany
      push_neg at hnot
      have hx2 := hnot x hx
      have hnk : rowKey x ≠ inKey ctx r := fun hk =>
        absurd (sameKey_iff_rowKey_ctx.mpr hk) (by simpa using hx2)
      simpa using hnk
    rw [h1, rowsWithKey_cons_of_eq (rowKey_newRow ctx r)]
    rfl

/-- The unique-key invariant is preserved by every upsert. -/
theorem keyUnique_upsertOne {ctx : UpsertCtx} {store : List SeriesRow} (r : InRow)
    (hwf : keyUnique store) : keyUnique (upsertOne ctx store r) := by
  intro k
  by_cases hk : inKey ctx r = k
  · subst hk
    rcases @rowsWithKey_upsertOne_eq ctx r store hwf with ⟨s, hs, _⟩
    rw [hs]
    exact le_refl 1
  · rw [rowsWithKey_upsertOne_ne store hk]
    exact hwf k

theorem keyUnique_applyUpserts {store : List SeriesRow}
    (calls : List (UpsertCtx × InRow)) (hwf : keyUnique store) :
    keyUnique (applyUpserts store calls) := by
  induction calls generalizing store with
  | nil => exact hwf
  | cons c cs ih => exact ih (keyUnique_upsertOne c.2 hwf)

theorem lastWrite_foldl (k : String × Nat × Option Nat × Option Nat)
    (cs : List (UpsertCtx × InRow)) :
    ∀ a : Option (UpsertCtx × InRow),
      cs.foldl (fun acc c2 => if inKey c2.1 c2.2 = k then some c2 else acc) a =
        match lastWrite k cs with
        | some c => some c
        | none => a := by
  induction cs with
  | nil => intro a; rfl
  | cons c cs ih =>
      intro a
      show cs.foldl _ (if inKey c.1 c.2 = k then some c else a) = _
      have hl : lastWrite k (c :: cs) =
          match lastWrite k cs with
          | some d => some d
          | none => (if inKey c.1 c.2 = k then some c else none) := by
        show cs.foldl _ (if inKey c.1 c.2 = k then some c else none) = _
        exact ih _
      rw [ih]
      cases h2 : lastWrite k cs with
      | some d => rw [hl, h2]
      | none =>
          rw [hl, h2]
          by_cases hc : inKey c.1 c.2 = k
          · rw [if_pos hc, if_pos hc]
          · rw [if_neg hc, if_neg hc]

theorem lastWrite_cons_eq (k : String × Nat × Option Nat × Option Nat)
    (c : UpsertCtx × InRow) (cs : List (UpsertCtx × InRow)) :
    lastWrite k (c :: cs) =
      match lastWrite k cs with
      | some d => some d
      | none => (if inKey c.1 c.2 = k then some c else none) := by
  show cs.foldl _ (if inKey c.1 c.2 = k then some c else none) = _
  exact lastWrite_foldl k cs _

/-- A sequence of upserts none of which writes key `k` leaves the rows of
key `k` unchanged. -/
theorem rowsWithKey_applyUpserts_none {k : String × Nat × Option Nat × Option Nat}
    {cs : List (UpsertCtx × InRow)} (h : lastWrite k cs = none) :
    ∀ store, rowsWithKey k (applyUpserts store cs) = rowsWithKey k store := by
  induction cs with
  | nil => intro store; rfl
  | cons c cs ih =>
      intro store
      rw [lastWrite_cons_eq] at h
      cases h2 : lastWrite k cs with
      | some d => rw [h2] at h; cases h
      | none =>
          rw [h2] at h
          have hc : inKey c.1 c.2 ≠ k := by
            intro hk
            rw [if_pos hk] at h
            cases h
          show rowsWithKey k (applyUpserts (upsertOne c.1 store c.2) cs) = _
          rw [ih h2, rowsWithKey_upsertOne_ne store hc]

theorem updateFirst_updateFirst {p : SeriesRow → Bool} {f : SeriesRow → SeriesRow}
    (hpf : ∀ s, p (f s) = p s) (hff : ∀ s, f (f s) = f s) (l : List SeriesRow) :
    updateFirst p f (updateFirst p f l) = updateFirst p f l := by
  induction l with
  | nil => rfl
  | cons s ss ih =>
      by_cases hp : p s = true
      · simp only [updateFirst, hp, if_pos]
        simp only [updateFirst, hpf s, hp, if_pos, hff s]
      · simp only [updateFirst, hp, if_neg, Bool.false_eq_true, if_false, ih]

theorem any_updateFirst {p : SeriesRow → Bool} {f : SeriesRow → SeriesRow}
    (hpf : ∀ s, p (f s) = p s) (l : List SeriesRow) :
    (updateFirst p f l).any p = l.any p := by
  induction l with
  | nil => rfl
  | cons s ss ih =>
      by_cases hp : p s = true
      · simp only [updateFirst, hp, if_pos, List.any_cons, hpf s]
      · simp only [updateFirst, hp, Bool.false_eq_true, if_false, List.any_cons, ih]

theorem updateFirst_append_left {p : SeriesRow → Bool} {f : SeriesRow → SeriesRow}
    {l₁ : List SeriesRow} (h : ∀ x ∈ l₁, p x = false) (l₂ : List SeriesRow) :
    updateFirst p f (l₁ ++ l₂) = l₁ ++ updateFirst p f l₂ := by
  induction l₁ with
  | nil => rfl
  | cons a as ih =>
      have hpa := h a (List.mem_cons_self a as)
      simp only [List.cons_append, updateFirst, hpa, Bool.false_eq_true, if_false,
        List.cons.injEq, true_and]
      exact ih fun x hx => h x (List.mem_cons_of_mem a hx)

theorem applyUpdate_newRow (ctx : UpsertCtx) (r : InRow) :
    applyUpdate ctx r (newRow ctx r) = newRow ctx r := rfl

theorem applyUpdate_applyUpdate (ctx : UpsertCtx) (r : InRow) (s : SeriesRow) :
    applyUpdate ctx r (applyUpdate ctx r s) = applyUpdate ctx r s := rfl

/-- Upserting the same row twice gives the same store as upserting it once. -/
theorem upsertOne_idem (ctx : UpsertCtx) (store : List SeriesRow) (r : InRow) :
    upsertOne ctx (upsertOne ctx store r) r = upsertOne ctx store r := by
  unfold upsertOne
  by_cases hany : store.any (sameKey ctx.series_id r) = true
  · rw [if_pos hany]
    have hany2 : (updateFirst (sameKey ctx.series_id r) (applyUpdate ctx r) store).any
        (sameKey ctx.series_id r) = true := by
      rw [any_updateFirst (fun s => sameKey_applyUpdate ctx r r s)]
      exact hany
    rw [if_pos hany2]
    exact updateFirst_updateFirst (fun s => sameKey_applyUpdate ctx r r s)
      (fun s => applyUpdate_applyUpdate ctx r s) store
  · rw [if_neg hany]
    have hstore : ∀ x ∈ store, sameKey ctx.series_id r x = false := by
      intro x hx
      by_contra hne
      exact hany (List.any_eq_true.mpr ⟨x, hx, eq_true_of_ne_false hne⟩)
    have hany2 : (store ++ [newRow ctx r]).any (sameKey ctx.series_id r) = true :=
      List.any_eq_true.mpr ⟨newRow ctx r, by simp, sameKey_newRow ctx r⟩
    rw [if_pos hany2, updateFirst_append_left hstore]
    simp only [updateFirst, sameKey_newRow ctx r, if_pos, applyUpdate_newRow]

theorem applyUpserts_last_write (calls : List (UpsertCtx × InRow)) :
    ∀ store, keyUnique store →
    ∀ (k : String × Nat × Option Nat × Option Nat) (ctx : UpsertCtx) (r : InRow),
      lastWrite k calls = some (ctx, r) →
      ∃ s, rowsWithKey k (applyUpserts store calls) = [s] ∧
        s.value_numeric = r.value_numeric ∧ s.units = ctx.units ∧ s.scale = ctx.scale ∧
        s.source = ctx.source ∧ s.source_url = ctx.source_url ∧
        s.source_version = ctx.source_version := by
  induction calls with
  | nil => intro store _ k ctx r h; cases h
  | cons c cs ih =>
      intro store hwf k ctx r hlast
      rw [lastWrite_cons_eq] at hlast
      cases h2 : lastWrite k cs with
      | some d =>
          rw [h2] at hlast
          replace hlast : some d = some (ctx, r) := hlast
          injection hlast with hd
          subst hd
          exact ih _ (keyUnique_upsertOne c.2 hwf) k ctx r h2
      | none =>
          rw [h2] at hlast
          replace hlast : (if inKey c.1 c.2 = k then some c else none) = some (ctx, r) := hlast
          by_cases hc : inKey c.1 c.2 = k
          · rw [if_pos hc] at hlast
            injection hlast with hc2
            subst hc2
            show ∃ s, rowsWithKey k (applyUpserts (upsertOne ctx store r) cs) = [s] ∧ _
            rw [rowsWithKey_applyUpserts_none h2, ← hc]
            exact rowsWithKey_upsertOne_eq hwf
          · rw [if_neg hc] at hlast
            cases hlast

theorem upsert_series_vintages_eq_applyUpserts (ctx : UpsertCtx)
    (rows : List InRow) : ∀ store,
    upsert_series_vintages ctx store rows = applyUpserts store (rows.map fun r => (ctx, r)) := by
  induction rows with
  | nil => intro store; rfl
  | cons r rs ih =>
      intro store
      show upsert_series_vintages ctx (upsertOne ctx store r) rs = _
      exact ih (upsertOne ctx store r)

/-- C2.  Starting from any store satisfying the unique-key invariant, after
any sequence of upserts whose last write to key `k` carries context `ctx`
and row `r`, exactly one stored row exists for `k` and its `value_numeric`,
`units`, `scale` and `source` fields equal the last-written values; the
invariant is preserved; and upserting one row twice equals upserting it
once (a single-row batch of `upsert_series_vintages`). -/
theorem upsert_series_vintages_key_semantics
    (store : List SeriesRow) (calls : List (UpsertCtx × InRow))
    (k : String × Nat × Option Nat × Option Nat) (ctx : UpsertCtx) (r : InRow)
    (hwf : keyUnique store) (hlast : lastWrite k calls = some (ctx, r)) :
    (∃ s, rowsWithKey k (applyUpserts store calls) = [s] ∧
        s.value_numeric = r.value_numeric ∧ s.units = ctx.units ∧ s.scale = ctx.scale ∧
        s.source = ctx.source ∧ s.source_url = ctx.source_url ∧
        s.source_version = ctx.source_version) ∧
    keyUnique (applyUpserts store calls) ∧
    (∀ (ctx2 : UpsertCtx) (store2 : List SeriesRow) (r2 : InRow),
        upsert_series_vintages ctx2 (upsert_series_vintages ctx2 store2 [r2]) [r2] =
          upsert_series_vintages ctx2 store2 [r2]) :=
  ⟨applyUpserts_last_write calls store hwf k ctx r hlast,
   keyUnique_applyUpserts calls hwf,
   fun ctx2 store2 r2 => upsertOne_idem ctx2 store2 r2⟩

/-- Concrete instance data for the C2 witness. -/
def c2ctx : UpsertCtx :=
  { series_id := "X", units := "USD", scale := 1, source := "FRED",
    source_url := none, source_version := none, now := 500 }

def c2row (v : ℚ) : InRow :=
  { observation_date := 10, vintage_date := none, publication_date := none,
    fetched_at := some 100, value_numeric := v }

/-- Witness for C2 at a concrete input: an empty store, one call writing
value 1 and a second call rewriting the key with value 2. -/
theorem upsert_series_vintages_key_semantics_witness :
    (∃ s, rowsWithKey ("X", 10, none, none)
        (applyUpserts [] [(c2ctx, c2row 1), (c2ctx, c2row 2)]) = [s] ∧
        s.value_numeric = (c2row 2).value_numeric ∧ s.units = c2ctx.units ∧
        s.scale = c2ctx.scale ∧ s.source = c2ctx.source ∧
        s.source_url = c2ctx.source_url ∧ s.source_version = c2ctx.source_version) ∧
    keyUnique (applyUpserts [] [(c2ctx, c2row 1), (c2ctx, c2row 2)]) ∧
    (∀ (ctx2 : UpsertCtx) (store2 : List SeriesRow) (r2 : InRow),
        upsert_series_vintages ctx2 (upsert_series_vintages ctx2 store2 [r2]) [r2] =
          upsert_series_vintages ctx2 store2 [r2]) :=
  upsert_series_vintages_key_semantics [] [(c2ctx, c2row 1), (c2ctx, c2row 2)]
    ("X", 10, none, none) c2ctx (c2row 2)
    (fun k => by simp [rowsWithKey])
    (by decide)

/-! ## Statistics kernel: `compute_z_from_points` (src/app/stats.py lines 7-19) -/

/-- Mean of the trailing window (`sum(values) / len(values)`). -/
def meanOf (l : List ℚ) : ℚ := l.sum / (l.length : ℚ)

/-- Sample variance with divisor `n - 1`
(`sum((v - mean) ** 2 for v in values) / (len(values) - 1)`). -/
def varOf (l : List ℚ) : ℚ :=
  ((l.map (fun v => (v - meanOf l) ^ 2)).sum) / ((l.length : ℚ) - 1)

/-- The degeneracy guard `max(1e-6, 1e-3 * abs(mean))`. -/
def zGuard (mean : ℚ) : ℚ := max (1 / 1000000) ((1 / 1000) * |mean|)

/-- Embedding of `compute_z_from_points` with `value_numeric` already
projected out of each point.  The float z-score `(last − mean) / std` with
`std = sqrt(var)` is represented exactly by the pair `(last − mean, var)`;
the guard `std < max(1e-6, 1e-3 * abs(mean))` is expressed equivalently as
`var < guard ^ 2` (the guard is positive, and `sqrt` is monotone). -/
def compute_z_from_points (points : List ℚ) (window : Nat := 20) : Option (ℚ × ℚ) :=
  if points.isEmpty then none
  else
    let values := lastN window points
    if values.length < 3 then none
    else
      let mean := meanOf values
      let var := varOf values
      if var < (zGuard mean) ^ 2 then none
      else some (values.getLastD 0 - mean, var)

theorem zGuard_pos (mean : ℚ) : 0 < zGuard mean :=
  lt_of_lt_of_le (by norm_num) (le_max_left _ _)

theorem varOf_nonneg {l : List ℚ} (h : 3 ≤ l.length) : 0 ≤ varOf l := by
  unfold varOf
  apply div_nonneg
  · apply List.sum_nonneg
    intro x hx
    rcases List.mem_map.mp hx with ⟨v, _, rfl⟩
    positivity
  · have : (3 : ℚ) ≤ (l.length : ℚ) := by exact_mod_cast h
    linarith

theorem compute_z_short {points : List ℚ} (h : points.length < 3) :
    compute_z_from_points points 20 = none := by
  unfold compute_z_from_points
  by_cases hemp : points.isEmpty
  · rw [if_pos hemp]
  · rw [if_neg hemp]
    have hlen : (lastN 20 points).length < 3 := by
      rw [lastN_length]
      omega
    simp only [hlen, if_pos]

theorem compute_z_eq_none_iff {points : List ℚ} (h : 3 ≤ points.length) :
    compute_z_from_points points 20 = none ↔
      varOf (lastN 20 points) < (zGuard (meanOf (lastN 20 points))) ^ 2 := by
  unfold compute_z_from_points
  have hemp : points.isEmpty = false := by
    cases points with
    | nil => simp at h
    | cons a as => rfl
  rw [hemp]
  have hlen : ¬((lastN 20 points).length < 3) := by
    rw [lastN_length]
    omega
  simp only [Bool.false_eq_true, if_false, hlen, if_neg, not_false_iff]
  by_cases hvar : varOf (lastN 20 points) < (zGuard (meanOf (lastN 20 points))) ^ 2
  · simp [hvar]
  · simp [hvar]

/-- C9.  `compute_z_from_points` is undefined on fewer than 3 observations;
the window holds the last `min 20 n` values; on at least 3 observations it is
undefined exactly when the standard deviation `sqrt(var)` is below
`max(1e-6, 1e-3 * abs(mean))`; a defined result encodes
`z = (last − mean) / sqrt(var)` with positive standard deviation; and a
constant series is always undefined. -/
theorem compute_z_from_points_spec (points : List ℚ) :
    (points.length < 3 → compute_z_from_points points 20 = none) ∧
    ((lastN 20 points).length = min 20 points.length) ∧
    (3 ≤ points.length →
      (compute_z_from_points points 20 = none ↔
        Real.sqrt (varOf (lastN 20 points)) < ((zGuard (meanOf (lastN 20 points)) : ℚ) : ℝ))) ∧
    (∀ d v, compute_z_from_points points 20 = some (d, v) →
      d = (lastN 20 points).getLastD 0 - meanOf (lastN 20 points) ∧
      v = varOf (lastN 20 points) ∧ 0 < Real.sqrt ((v : ℚ) : ℝ) ∧
      ((d : ℚ) : ℝ) / Real.sqrt ((v : ℚ) : ℝ) =
        (((lastN 20 points).getLastD 0 : ℚ) - (meanOf (lastN 20 points) : ℚ) : ℝ) /
          Real.sqrt ((varOf (lastN 20 points) : ℚ) : ℝ)) ∧
    (∀ c : ℚ, (∀ x ∈ points, x = c) → compute_z_from_points points 20 = none) := by
  refine ⟨compute_z_short, lastN_length 20 points, ?_, ?_, ?_⟩
  · intro h
    rw [compute_z_eq_none_iff h]
    have hg : (0 : ℝ) < ((zGuard (meanOf (lastN 20 points)) : ℚ) : ℝ) := by
      exact_mod_cast zGuard_pos _
    rw [Real.sqrt_lt' hg]
    constructor
    · intro hq
      exact_mod_cast hq
    · intro hr
      exact_mod_cast hr
  · intro d v hdv
    unfold compute_z_from_points at hdv
    by_cases hemp : points.isEmpty
    · rw [if_pos hemp] at hdv
      cases hdv
    · rw [if_neg hemp] at hdv
      by_cases hlen : (lastN 20 points).length < 3
      · simp only [hlen, if_pos] at hdv
        exact Option.noConfusion hdv
      · simp only [hlen, if_neg, not_false_iff] at hdv
        by_cases hvar : varOf (lastN 20 points) < (zGuard (meanOf (lastN 20 points))) ^ 2
        · simp only [hvar, if_pos] at hdv
          exact Option.noConfusion hdv
        · simp only [hvar, if_neg, not_false_iff] at hdv
          simp only [Option.some.injEq, Prod.mk.injEq] at hdv
          rcases hdv with ⟨hd, hv⟩
          subst hd
          subst hv
          refine ⟨rfl, rfl, ?_, by push_cast; ring⟩
          rw [Real.sqrt_pos]
          have hge : (zGuard (meanOf (lastN 20 points))) ^ 2 ≤ varOf (lastN 20 points) :=
            le_of_not_lt hvar
          have hpos : (0 : ℚ) < (zGuard (meanOf (lastN 20 points))) ^ 2 :=
            pow_pos (zGuard_pos _) 2
          exact_mod_cast lt_of_lt_of_le hpos hge
  · intro c hc
    rcases Nat.lt_or_ge points.length 3 with hlt | hge
    · exact compute_z_short hlt
    · rw [compute_z_eq_none_iff hge]
      have hconst : ∀ x ∈ lastN 20 points, x = c := fun x hx => hc x (lastN_subset 20 points x hx)
      have hlen : 0 < (lastN 20 points).length := by
        rw [lastN_length]
        omega
      have hsum : (lastN 20 points).sum = ((lastN 20 points).length : ℚ) * c := by
        rw [List.sum_eq_card_nsmul _ c hconst]
        simp [nsmul_eq_mul]
      have hmean : meanOf (lastN 20 points) = c := by
        unfold meanOf
        rw [hsum]
        field_simp
      have hvar : varOf (lastN 20 points) = 0 := by
        unfold varOf
        have : ∀ x ∈ (lastN 20 points).map (fun v => (v - meanOf (lastN 20 points)) ^ 2),
            x = 0 := by
          intro x hx
          rcases List.mem_map.mp hx with ⟨v, hv, rfl⟩
          rw [hmean, hconst v hv]
          ring
        rw [List.sum_eq_card_nsmul _ 0 this]
        simp
      rw [hvar]
      exact pow_pos (zGuard_pos _) 2

/-! ## Indicator evaluator, z-scoring branch
(src/app/snapshot.py: `directionality_sign` lines 21-34 and
`compute_indicator_status` lines 632-671) -/

/-- Embedding of `directionality_sign`. -/
def directionality_sign (directionality : String) : ℤ :=
  if directionality = "higher_is_supportive" then 1
  else if directionality = "lower_is_supportive" then -1
  else if directionality = "higher_is_draining" then -1
  else 1

/-- The float test `abs(z) < cutoff` for a z-score represented by
`(d, v) = (last − mean, var)`: `abs(z) = abs(d) / sqrt(v)`, so for a positive
cutoff the test is `d^2 < cutoff^2 * v`, and for a nonpositive cutoff it is
false. -/
def zAbsLt (d v cutoff : ℚ) : Bool :=
  decide (0 < cutoff) && decide (d ^ 2 < cutoff ^ 2 * v)

/-- One iteration of the persistence walk at truncation depth `back`: the
suffix `points[: len(points) - back]` must have at least 3 points, a defined
z, `abs(z) >= cutoff`, and the required sign of `z * dir` (`z * dir` has the
sign of `d * dir` because `sqrt(var) > 0`). -/
def zStepQual (points : List ℚ) (cutoff : ℚ) (dir : ℤ) (pos : Bool) (back : Nat) : Bool :=
  if points.length - back < 3 then false
  else
    match compute_z_from_points (points.take (points.length - back)) 20 with
    | none => false
    | some (d, _v) =>
        if zAbsLt d _v cutoff then false
        else if pos then decide (0 < d * (dir : ℚ)) else decide (d * (dir : ℚ) < 0)

/-- The count accumulated by the walk-back loop: consecutive qualifying
truncation depths starting at `back`, stopping at the first failure
(`break`) or after `rem` iterations. -/
def qualifiesAux (points : List ℚ) (cutoff : ℚ) (dir : ℤ) (pos : Bool) :
    Nat → Nat → Nat
  | _, 0 => 0
  | back, rem + 1 =>
      if zStepQual points cutoff dir pos back then
        qualifiesAux points cutoff dir pos (back + 1) rem + 1
      else 0

/-- The `qualifies` counter of the positive (`pos = true`) or negative
(`pos = false`) persistence loop over `range(required)`. -/
def qualifies (points : List ℚ) (cutoff : ℚ) (dir : ℤ) (pos : Bool) (required : Nat) : Nat :=
  qualifiesAux points cutoff dir pos 0 required

/-- Embedding of the z-scoring branch of `compute_indicator_status`:
status stays 0 when z is undefined; otherwise +1 when all `required`
truncations qualify positively, else -1 when all qualify negatively,
else 0. -/
def compute_indicator_status_z (points : List ℚ) (cutoff : ℚ) (dir : ℤ)
    (required : Nat) : ℤ :=
  match compute_z_from_points points 20 with
  | none => 0
  | some _ =>
      if required ≤ qualifies points cutoff dir true required then 1
      else if required ≤ qualifies points cutoff dir false required then -1
      else 0

/-- The specification-side qualification of one suffix: a defined z whose
magnitude reaches the cutoff and whose directionality-adjusted sign is
positive (`pos = true`) or negative (`pos = false`). -/
def suffixQual (points : List ℚ) (cutoff : ℚ) (dir : ℤ) (pos : Bool) (back : Nat) : Prop :=
  ∃ d v, compute_z_from_points (points.take (points.length - back)) 20 = some (d, v) ∧
    zAbsLt d v cutoff = false ∧
    (if pos then 0 < d * (dir : ℚ) else d * (dir : ℚ) < 0)

theorem zStepQual_iff {points : List ℚ} {cutoff : ℚ} {dir : ℤ} {pos : Bool} {back : Nat} :
    zStepQual points cutoff dir pos back = true ↔ suffixQual points cutoff dir pos back := by
  unfold zStepQual suffixQual
  by_cases hlen : points.length - back < 3
  · rw [if_pos hlen]
    have hshort : compute_z_from_points (points.take (points.length - back)) 20 = none := by
      apply compute_z_short
      rw [List.length_take]
      omega
    simp [hshort]
  · rw [if_neg hlen]
    cases hz : compute_z_from_points (points.take (points.length - back)) 20 with
    | none => simp [hz]
    | some dv =>
        rcases dv with ⟨d, v⟩
        simp only [hz, Option.some.injEq, Prod.mk.injEq]
        by_cases habs : zAbsLt d v cutoff = true
        · rw [if_pos habs]
          simp only [Bool.false_eq_true, false_iff]
          rintro ⟨d2, v2, ⟨rfl, rfl⟩, hfalse, _⟩
          rw [habs] at hfalse
          cases hfalse
        · have habs2 : zAbsLt d v cutoff = false := Bool.eq_false_iff.mpr habs
          rw [if_neg habs]
          cases pos with
          | true =>
              simp only [if_pos, decide_eq_true_eq]
              constructor
              · intro h
                exact ⟨d, v, ⟨rfl, rfl⟩, habs2, by simpa using h⟩
              · rintro ⟨d2, v2, ⟨rfl, rfl⟩, _, h⟩
                simpa using h
          | false =>
              simp only [Bool.false_eq_true, if_false, decide_eq_true_eq]
              constructor
              · intro h
                exact ⟨d, v, ⟨rfl, rfl⟩, habs2, by simpa using h⟩
              · rintro ⟨d2, v2, ⟨rfl, rfl⟩, _, h⟩
                simpa using h

theorem qualifiesAux_le (points : List ℚ) (cutoff : ℚ) (dir : ℤ) (pos : Bool) :
    ∀ rem back, qualifiesAux points cutoff dir pos back rem ≤ rem := by
  intro rem
  induction rem with
  | zero => intro back; exact le_refl 0
  | succ n ih =>
      intro back
      unfold qualifiesAux
      by_cases h : zStepQual points cutoff dir pos back = true
      · rw [if_pos h]
        exact Nat.succ_le_succ (ih (back + 1))
      · rw [if_neg h]
        exact Nat.zero_le _

theorem qualifiesAux_eq_iff (points : List ℚ) (cutoff : ℚ) (dir : ℤ) (pos : Bool) :
    ∀ rem back, qualifiesAux points cutoff dir pos back rem = rem ↔
      ∀ j < rem, zStepQual points cutoff dir pos (back + j) = true := by
  intro rem
  induction rem with
  | zero => intro back; simp [qualifiesAux]
  | succ n ih =>
      intro back
      unfold qualifiesAux
      by_cases h : zStepQual points cutoff dir pos back = true
      · rw [if_pos h]
        rw [Nat.succ_inj, ih (back + 1)]
        constructor
        · intro hall j hj
          cases j with
          | zero => simpa using h
          | succ i =>
              have h2 := hall i (Nat.lt_of_succ_lt_succ hj)
              have heq : back + (i + 1) = back + 1 + i := by omega
              rw [heq]
              exact h2
        · intro hall j hj
          have h2 := hall (j + 1) (Nat.succ_lt_succ hj)
          have heq : back + 1 + j = back + (j + 1) := by omega
          rw [heq]
          exact h2
      · rw [if_neg h]
        constructor
        · intro h0
          exact absurd h0.symm (Nat.succ_ne_zero n)
        · intro hall
          exact absurd (by simpa using hall 0 (Nat.succ_pos n)) h

theorem qualifies_ge_iff (points : List ℚ) (cutoff : ℚ) (dir : ℤ) (pos : Bool) (P : Nat) :
    P ≤ qualifies points cutoff dir pos P ↔
      ∀ back < P, suffixQual points cutoff dir pos back := by
  have hle := qualifiesAux_le points cutoff dir pos P 0
  unfold qualifies
  constructor
  · intro h
    have heq : qualifiesAux points cutoff dir pos 0 P = P := le_antisymm hle h
    intro back hb
    have := (qualifiesAux_eq_iff points cutoff dir pos P 0).mp heq back hb
    rw [Nat.zero_add] at this
    exact zStepQual_iff.mp this
  · intro hall
    have heq : qualifiesAux points cutoff dir pos 0 P = P := by
      rw [qualifiesAux_eq_iff]
      intro j hj
      rw [Nat.zero_add]
      exact zStepQual_iff.mpr (hall j hj)
    rw [heq]

theorem suffixQual_zero_some {points : List ℚ} {cutoff : ℚ} {dir : ℤ} {pos : Bool}
    (h : suffixQual points cutoff dir pos 0) :
    ∃ dv, compute_z_from_points points 20 = some dv := by
  rcases h with ⟨d, v, hz, _, _⟩
  rw [Nat.sub_zero, List.take_length] at hz
  exact ⟨(d, v), hz⟩

theorem suffixQual_not_both {points : List ℚ} {cutoff : ℚ} {dir : ℤ}
    (h1 : suffixQual points cutoff dir true 0) (h2 : suffixQual points cutoff dir false 0) :
    False := by
  rcases h1 with ⟨d, v, hz, _, hp⟩
  rcases h2 with ⟨d2, v2, hz2, _, hn⟩
  rw [hz] at hz2
  simp only [Option.some.injEq, Prod.mk.injEq] at hz2
  rcases hz2 with ⟨rfl, rfl⟩
  simp only [if_pos] at hp
  simp only [Bool.false_eq_true, if_false] at hn
  exact absurd hp (not_lt_of_gt hn)

/-- C3.  For a z-scored indicator with persistence `P >= 1`, the status is
`+1` exactly when each of the `P` truncated suffixes has a defined z with
magnitude at least the cutoff and positive directionality-adjusted sign;
`-1` exactly when each has magnitude at least the cutoff and negative
adjusted sign; and `0` otherwise (in particular whenever z is undefined). -/
theorem compute_indicator_status_z_spec (points : List ℚ) (cutoff : ℚ) (dir : ℤ)
    (P : Nat) (hP : 1 ≤ P) :
    (compute_indicator_status_z points cutoff dir P = 1 ↔
      ∀ back < P, suffixQual points cutoff dir true back) ∧
    (compute_indicator_status_z points cutoff dir P = -1 ↔
      ∀ back < P, suffixQual points cutoff dir false back) ∧
    (compute_indicator_status_z points cutoff dir P = 0 ↔
      ¬(∀ back < P, suffixQual points cutoff dir true back) ∧
      ¬(∀ back < P, suffixQual points cutoff dir false back)) := by
  have hiffpos := qualifies_ge_iff points cutoff dir true P
  have hiffneg := qualifies_ge_iff points cutoff dir false P
  have h1 : compute_indicator_status_z points cutoff dir P = 1 ↔
      ∀ back < P, suffixQual points cutoff dir true back := by
    unfold compute_indicator_status_z
    cases hz : compute_z_from_points points 20 with
    | none =>
        constructor
        · intro h
          exact absurd (show (0:ℤ) = 1 from h) (by decide)
        · intro hall
          rcases suffixQual_zero_some (hall 0 hP) with ⟨dv, hdv⟩
          rw [hz] at hdv
          exact absurd hdv (by simp)
    | some dv =>
        by_cases hq : P ≤ qualifies points cutoff dir true P
        · rw [if_pos hq]
          simp only [true_iff]
          exact hiffpos.mp hq
        · rw [if_neg hq]
          have hnall : ¬∀ back < P, suffixQual points cutoff dir true back :=
            fun hall => hq (hiffpos.mpr hall)
          by_cases hq2 : P ≤ qualifies points cutoff dir false P
          · rw [if_pos hq2]
            constructor
            · intro h
              exact absurd (show (-1:ℤ) = 1 from h) (by decide)
            · intro hall
              exact absurd hall hnall
          · rw [if_neg hq2]
            constructor
            · intro h
              exact absurd (show (0:ℤ) = 1 from h) (by decide)
            · intro hall
              exact absurd hall hnall
  have h2 : compute_indicator_status_z points cutoff dir P = -1 ↔
      ∀ back < P, suffixQual points cutoff dir false back := by
    unfold compute_indicator_status_z
    cases hz : compute_z_from_points points 20 with
    | none =>
        constructor
        · intro h
          exact absurd (show (0:ℤ) = -1 from h) (by decide)
        · intro hall
          rcases suffixQual_zero_some (hall 0 hP) with ⟨dv, hdv⟩
          rw [hz] at hdv
          exact absurd hdv (by simp)
    | some dv =>
        by_cases hq : P ≤ qualifies points cutoff dir true P
        · rw [if_pos hq]
          constructor
          · intro h
            exact absurd (show (1:ℤ) = -1 from h) (by decide)
          · intro hall
            exact (suffixQual_not_both (hiffpos.mp hq 0 hP) (hall 0 hP)).elim
        · rw [if_neg hq]
          by_cases hq2 : P ≤ qualifies points cutoff dir false P
          · rw [if_pos hq2]
            simp only [true_iff]
            exact hiffneg.mp hq2
          · rw [if_neg hq2]
            constructor
            · intro h
              exact absurd (show (0:ℤ) = -1 from h) (by decide)
            · intro hall
              exact absurd (hiffneg.mpr hall) hq2
  refine ⟨h1, h2, ?_⟩
  constructor
  · intro h0
    constructor
    · intro hall
      rw [← h1] at hall
      rw [h0] at hall
      exact absurd hall (by decide)
    · intro hall
      rw [← h2] at hall
      rw [h0] at hall
      exact absurd hall (by decide)
  · rintro ⟨hna, hnb⟩
    unfold compute_indicator_status_z
    cases hz : compute_z_from_points points 20 with
    | none => rfl
    | some dv =>
        have hq : ¬ P ≤ qualifies points cutoff dir true P :=
          fun h => hna (hiffpos.mp h)
        have hq2 : ¬ P ≤ qualifies points cutoff dir false P :=
          fun h => hnb (hiffneg.mp h)
        rw [if_neg hq, if_neg hq2]

/-- Witness for C3 at a concrete input: three increasing points, cutoff 1,
persistence 1, `higher_is_supportive`. -/
theorem compute_indicator_status_z_spec_witness :
    (compute_indicator_status_z [1, 2, 10] 1 (directionality_sign "higher_is_supportive") 1 = 1 ↔
      ∀ back < 1, suffixQual [1, 2, 10] 1 (directionality_sign "higher_is_supportive") true back) ∧
    (compute_indicator_status_z [1, 2, 10] 1 (directionality_sign "higher_is_supportive") 1 = -1 ↔
      ∀ back < 1, suffixQual [1, 2, 10] 1 (directionality_sign "higher_is_supportive") false back) ∧
    (compute_indicator_status_z [1, 2, 10] 1 (directionality_sign "higher_is_supportive") 1 = 0 ↔
      ¬(∀ back < 1, suffixQual [1, 2, 10] 1 (directionality_sign "higher_is_supportive") true back) ∧
      ¬(∀ back < 1, suffixQual [1, 2, 10] 1 (directionality_sign "higher_is_supportive") false back)) :=
  compute_indicator_status_z_spec [1, 2, 10] 1 (directionality_sign "higher_is_supportive") 1
    (le_refl 1)

/-! ## Bucket and regime aggregation: `compute_snapshot`
(src/app/snapshot.py lines 703-896).  The pipeline below `compute_snapshot`
is embedded as functions of the registry rows `regs` (in query order,
`ORDER BY indicator_id`) and of the evaluated indicator rows `evals` (the
`indicators` list after the status `n/a` filter, in evaluation order). -/

/-- A row of `indicator_registry` restricted to the fields the aggregation
uses. -/
structure Reg where
  indicator_id : String
  category : String
  duplicates_of : Option String
deriving DecidableEq

/-- An evaluated indicator row: `id`, its numeric contribution, `z20`, and
the provenance pieces that feed the frozen-inputs builder. -/
structure Eval where
  id : String
  contribution : ℚ
  z20 : Option ℚ
  provSeries : List String
  provInputs : Option (List (String × Option Nat × Option Nat))
  provObs : Option Nat
  provVintage : Option Nat
deriving DecidableEq

/-- The `reg_by_id.get` dictionary lookup. -/
def findReg (regs : List Reg) (iid : String) : Option Reg :=
  regs.find? (fun r => r.indicator_id == iid)

/-- Embedding of `root_id` inside `compute_snapshot`: `duplicates_of or
indicator_id` with Python truthiness (an empty string is falsy). -/
def root_id (regs : List Reg) (iid : String) : String :=
  match findReg regs iid with
  | none => iid
  | some r =>
      match r.duplicates_of with
      | none => iid
      | some d => if d = "" then iid else d

/-- The bucket keys, in first-appearance order (`defaultdict` insertion). -/
def bucketIds (regs : List Reg) (evals : List Eval) : List String :=
  dedupFirst (evals.map (fun e => root_id regs e.id))

/-- The member ids of a bucket, in evaluation order. -/
def memberIds (regs : List Reg) (evals : List Eval) (rid : String) : List String :=
  (evals.filter (fun e => root_id regs e.id == rid)).map (·.id)

/-- The member contributions of a bucket. -/
def memberContribs (regs : List Reg) (evals : List Eval) (rid : String) : List ℚ :=
  (evals.filter (fun e => root_id regs e.id == rid)).map (·.contribution)

/-- `bucket_aggregate[rid] = sum(vals) / len(vals) if vals else 0.0`. -/
def bucket_aggregate (regs : List Reg) (evals : List Eval) (rid : String) : ℚ :=
  let vals := memberContribs regs evals rid
  if vals.isEmpty then 0 else vals.sum / (vals.length : ℚ)

/-- The category weight table `WEIGHTS`. -/
def WEIGHTS (c : String) : ℚ :=
  if c = "core_plumbing" then 1/2
  else if c = "floor" then 3/10
  else if c = "supply" then 1/5
  else 0

/-- The weight a bucket root contributes: 0 when the root id is not in the
registry (`continue`), else its category weight (0 for unweighted
categories). -/
def weightOf (regs : List Reg) (rid : String) : ℚ :=
  match findReg regs rid with
  | none => 0
  | some r => WEIGHTS r.category

/-- `weighted_sum` accumulated over the buckets (skipped zero-weight terms
add nothing). -/
def weighted_sum (regs : List Reg) (evals : List Eval) : ℚ :=
  ((bucketIds regs evals).map
    (fun rid => weightOf regs rid * bucket_aggregate regs evals rid)).sum

/-- `total_weight` accumulated over the buckets. -/
def total_weight (regs : List Reg) (evals : List Eval) : ℚ :=
  ((bucketIds regs evals).map (fun rid => weightOf regs rid)).sum

/-- `score_cont = weighted_sum if total_weight > 0 else
sum(contributions.values())`. -/
def score_cont (regs : List Reg) (evals : List Eval) : ℚ :=
  if 0 < total_weight regs evals then weighted_sum regs evals
  else (evals.map (·.contribution)).sum

/-- `score = int(round(score_cont))`. -/
def score (regs : List Reg) (evals : List Eval) : ℤ :=
  pyRound (score_cont regs evals)

/-- `max_score = max(1, number of weighted buckets)`. -/
def max_score (regs : List Reg) (evals : List Eval) : Nat :=
  max 1 ((bucketIds regs evals).filter (fun rid => decide (0 < weightOf regs rid))).length

/-- The regime label thresholds. -/
def regime_label (regs : List Reg) (evals : List Eval) : String :=
  if 2 ≤ score regs evals then "Positive"
  else if score regs evals ≤ -2 then "Negative"
  else "Neutral"

/-- The tilt from the sign of the continuous score. -/
def tilt (regs : List Reg) (evals : List Eval) : String :=
  if 0 < score_cont regs evals then "positive"
  else if score_cont regs evals < 0 then "negative"
  else "flat"

theorem WEIGHTS_nonneg (c : String) : 0 ≤ WEIGHTS c := by
  unfold WEIGHTS
  by_cases h1 : c = "core_plumbing"
  · rw [if_pos h1]; norm_num
  · rw [if_neg h1]
    by_cases h2 : c = "floor"
    · rw [if_pos h2]; norm_num
    · rw [if_neg h2]
      by_cases h3 : c = "supply"
      · rw [if_pos h3]; norm_num
      · rw [if_neg h3]

theorem weightOf_nonneg (regs : List Reg) (rid : String) : 0 ≤ weightOf regs rid := by
  unfold weightOf
  cases findReg regs rid with
  | none => exact le_refl 0
  | some r => exact WEIGHTS_nonneg r.category

theorem total_weight_pos_iff (regs : List Reg) (evals : List Eval) :
    0 < total_weight regs evals ↔
      ∃ rid ∈ bucketIds regs evals, 0 < weightOf regs rid := by
  unfold total_weight
  constructor
  · intro hpos
    by_contra hno
    push_neg at hno
    have hzero : ((bucketIds regs evals).map (fun rid => weightOf regs rid)).sum = 0 := by
      apply List.sum_eq_zero
      intro x hx
      rcases List.mem_map.mp hx with ⟨rid, hrid, rfl⟩
      exact le_antisymm (hno rid hrid) (weightOf_nonneg regs rid)
    rw [hzero] at hpos
    exact lt_irrefl 0 hpos
  · rintro ⟨rid, hrid, hpos⟩
    have hmem : weightOf regs rid ∈ (bucketIds regs evals).map (fun r => weightOf regs r) :=
      List.mem_map_of_mem _ hrid
    calc (0 : ℚ) < weightOf regs rid := hpos
      _ ≤ _ := List.single_le_sum
          (fun x hx => by
            rcases List.mem_map.mp hx with ⟨r2, _, rfl⟩
            exact weightOf_nonneg regs r2) _ hmem

theorem mem_memberContribs_ne_nil {regs : List Reg} {evals : List Eval} {rid : String}
    (h : rid ∈ bucketIds regs evals) : memberContribs regs evals rid ≠ [] := by
  unfold bucketIds at h
  rw [mem_dedupFirst] at h
  rcases List.mem_map.mp h with ⟨e, he, hroot⟩
  unfold memberContribs
  intro hemp
  have hmem : e ∈ evals.filter (fun e => root_id regs e.id == rid) :=
    List.mem_filter.mpr ⟨he, by simp [hroot]⟩
  have hmem2 : e.contribution ∈
      (evals.filter (fun e => root_id regs e.id == rid)).map (·.contribution) :=
    List.mem_map_of_mem _ hmem
  rw [hemp] at hmem2
  cases hmem2

/-- C4, amended.  Every bucket aggregate is the mean of its member
contributions; when at least one bucket root carries a weight the continuous
score is the weighted sum of bucket aggregates, and otherwise it falls back
to the plain sum of all evaluated contributions (the claim said 0);
`score` rounds the continuous score, `max_score` is `max 1` of the number
of weighted buckets, and the label and tilt follow the stated thresholds. -/
theorem compute_snapshot_aggregation_spec (regs : List Reg) (evals : List Eval) :
    (∀ rid ∈ bucketIds regs evals,
        bucket_aggregate regs evals rid =
          (memberContribs regs evals rid).sum / ((memberContribs regs evals rid).length : ℚ) ∧
        memberContribs regs evals rid ≠ []) ∧
    ((0 < total_weight regs evals ↔ ∃ rid ∈ bucketIds regs evals, 0 < weightOf regs rid)) ∧
    (0 < total_weight regs evals → score_cont regs evals = weighted_sum regs evals) ∧
    (¬ 0 < total_weight regs evals →
        score_cont regs evals = (evals.map (·.contribution)).sum) ∧
    score regs evals = pyRound (score_cont regs evals) ∧
    max_score regs evals =
      max 1 ((bucketIds regs evals).filter (fun rid => decide (0 < weightOf regs rid))).length ∧
    (regime_label regs evals = "Positive" ↔ 2 ≤ score regs evals) ∧
    (regime_label regs evals = "Negative" ↔ score regs evals ≤ -2) ∧
    (tilt regs evals = "positive" ↔ 0 < score_cont regs evals) ∧
    (tilt regs evals = "negative" ↔ score_cont regs evals < 0) ∧
    (tilt regs evals = "flat" ↔ score_cont regs evals = 0) := by
  refine ⟨?_, total_weight_pos_iff regs evals, ?_, ?_, rfl, rfl, ?_, ?_, ?_, ?_, ?_⟩
  · intro rid hrid
    have hne := mem_memberContribs_ne_nil hrid
    refine ⟨?_, hne⟩
    unfold bucket_aggregate
    rw [if_neg (by simpa [List.isEmpty_iff] using hne)]
  · intro h
    unfold score_cont
    rw [if_pos h]
  · intro h
    unfold score_cont
    rw [if_neg h]
  · unfold regime_label
    by_cases h : 2 ≤ score regs evals
    · simp [h]
    · rw [if_neg h]
      by_cases h2 : score regs evals ≤ -2
      · rw [if_pos h2]
        simp only [iff_iff_implies_and_implies]
        constructor
        · intro hs
          exact absurd hs (by decide)
        · intro hs
          exact absurd hs h
      · rw [if_neg h2]
        simp only [iff_iff_implies_and_implies]
        constructor
        · intro hs
          exact absurd hs (by decide)
        · intro hs
          exact absurd hs h
  · unfold regime_label
    by_cases h : 2 ≤ score regs evals
    · rw [if_pos h]
      constructor
      · intro hs
        exact absurd hs (by decide)
      · intro hs
        omega
    · rw [if_neg h]
      by_cases h2 : score regs evals ≤ -2
      · simp [h2]
      · rw [if_neg h2]
        constructor
        · intro hs
          exact absurd hs (by decide)
        · intro hs
          exact absurd hs h2
  · unfold tilt
    by_cases h : 0 < score_cont regs evals
    · simp [h]
    · rw [if_neg h]
      by_cases h2 : score_cont regs evals < 0
      · rw [if_pos h2]
        constructor
        · intro hs
          exact absurd hs (by decide)
        · intro hs
          exact absurd hs h
      · rw [if_neg h2]
        constructor
        · intro hs
          exact absurd hs (by decide)
        · intro hs
          exact absurd hs h
  · unfold tilt
    by_cases h : 0 < score_cont regs evals
    · rw [if_pos h]
      constructor
      · intro hs
        exact absurd hs (by decide)
      · intro hs
        exact absurd (lt_trans h hs) (lt_irrefl 0)
    · rw [if_neg h]
      by_cases h2 : score_cont regs evals < 0
      · simp [h2]
      · rw [if_neg h2]
        constructor
        · intro hs
          exact absurd hs (by decide)
        · intro hs
          exact absurd hs h2
  · unfold tilt
    by_cases h : 0 < score_cont regs evals
    · rw [if_pos h]
      constructor
      · intro hs
        exact absurd hs (by decide)
      · intro hs
        rw [hs] at h
        exact absurd h (lt_irrefl 0)
    · rw [if_neg h]
      by_cases h2 : score_cont regs evals < 0
      · rw [if_pos h2]
        constructor
        · intro hs
          exact absurd hs (by decide)
        · intro hs
          rw [hs] at h2
          exact absurd h2 (lt_irrefl 0)
      · rw [if_neg h2]
        simp only [true_iff]
        exact le_antisymm (le_of_not_lt h) (le_of_not_lt h2)

/-- C4 as stated is false: with a single evaluated indicator whose root
category is `stress` (unweighted), the code falls back to the sum of all
contributions, so `score_cont = 1`, while the claimed weighted sum over
weighted buckets is 0. -/
theorem compute_snapshot_score_cont_counterexample :
    score_cont [⟨"a", "stress", none⟩]
        [⟨"a", 1, none, ["S"], none, none, none⟩] = 1 ∧
    weighted_sum [⟨"a", "stress", none⟩]
        [⟨"a", 1, none, ["S"], none, none, none⟩] = 0 := by
  have hb : bucketIds [⟨"a", "stress", none⟩]
      [⟨"a", 1, none, ["S"], none, none, none⟩] = ["a"] := rfl
  have hw : weightOf ([⟨"a", "stress", none⟩] : List Reg) "a" = 0 := rfl
  have htw : total_weight [⟨"a", "stress", none⟩]
      [⟨"a", 1, none, ["S"], none, none, none⟩] = 0 := by
    rw [total_weight, hb]
    simp [hw]
  constructor
  · rw [score_cont, if_neg (by rw [htw]; exact lt_irrefl 0)]
    simp
  · rw [weighted_sum, hb]
    simp [hw]

/-- The `z_by_id` dictionary of `compute_snapshot` (lines 778-782):
`abs(z20)` of the evaluated row with that id, 0 when `z20` is undefined or
the id is absent. -/
def z_by_id (evals : List Eval) (mid : String) : ℚ :=
  match evals.find? (fun e => e.id == mid) with
  | none => 0
  | some e =>
      match e.z20 with
      | none => 0
      | some z => |z|

/-- `best_id = max(members, key=lambda mid: z_by_id.get(mid, 0.0))`
(line 788): Python `max` keeps the first member attaining the maximum. -/
def representative_by_bucket (regs : List Reg) (evals : List Eval) (rid : String) :
    Option String :=
  pyMaxBy (z_by_id evals) (memberIds regs evals rid)

/-- Python `max(l, key=key)` decomposition: the result is an element of the
list, every element strictly before it has a strictly smaller key, and no
element has a larger key. -/
theorem pyMaxBy_spec [LinearOrder β] (key : α → β) :
    ∀ (xs : List α) (x : α), ∃ l₁ l₂ r, x :: xs = l₁ ++ r :: l₂ ∧
      pyMaxBy key (x :: xs) = some r ∧
      (∀ y ∈ l₁, key y < key r) ∧ (∀ y ∈ x :: xs, key y ≤ key r) := by
  intro xs
  induction xs with
  | nil =>
      intro x
      refine ⟨[], [], x, rfl, rfl, ?_, ?_⟩
      · intro y hy
        cases hy
      · intro y hy
        rcases List.mem_singleton.mp hy with rfl
        exact le_refl _
  | cons y ys ih =>
      intro x
      by_cases hk : key x < key y
      · rcases ih y with ⟨l₁, l₂, r, hdec, hmax, hl₁, hle⟩
        refine ⟨x :: l₁, l₂, r, ?_, ?_, ?_, ?_⟩
        · rw [List.cons_append, ← hdec]
        · show some (List.foldl (fun b z => if key b < key z then z else b)
            (if key x < key y then y else x) ys) = some r
          rw [if_pos hk]
          exact hmax
        · intro z hz
          rcases List.mem_cons.mp hz with rfl | hz
          · exact lt_of_lt_of_le hk (hle y (List.mem_cons_self y ys))
          · exact hl₁ z hz
        · intro z hz
          rcases List.mem_cons.mp hz with rfl | hz
          · exact le_of_lt (lt_of_lt_of_le hk (hle y (List.mem_cons_self y ys)))
          · exact hle z hz
      · rcases ih x with ⟨l₁, l₂, r, hdec, hmax, hl₁, hle⟩
        cases l₁ with
        | nil =>
            simp only [List.nil_append, List.cons.injEq] at hdec
            rcases hdec with ⟨rfl, rfl⟩
            refine ⟨[], y :: ys, x, rfl, ?_, ?_, ?_⟩
            · show some (List.foldl (fun b z => if key b < key z then z else b)
                (if key x < key y then y else x) ys) = some x
              rw [if_neg hk]
              exact hmax
            · intro z hz
              cases hz
            · intro z hz
              rcases List.mem_cons.mp hz with rfl | hz
              · exact le_refl _
              · rcases List.mem_cons.mp hz with rfl | hz
                · exact le_of_not_lt hk
                · exact hle z (List.mem_cons_of_mem x hz)
        | cons a l₁' =>
            simp only [List.cons_append, List.cons.injEq] at hdec
            rcases hdec with ⟨rfl, hys⟩
            have hx_lt : key x < key r := hl₁ x (List.mem_cons_self x l₁')
            refine ⟨x :: y :: l₁', l₂, r, ?_, ?_, ?_, ?_⟩
            · rw [hys]
              rfl
            · show some (List.foldl (fun b z => if key b < key z then z else b)
                (if key x < key y then y else x) ys) = some r
              rw [if_neg hk]
              exact hmax
            · intro z hz
              rcases List.mem_cons.mp hz with rfl | hz
              · exact hx_lt
              · rcases List.mem_cons.mp hz with rfl | hz
                · exact lt_of_le_of_lt (le_of_not_lt hk) hx_lt
                · exact hl₁ z (List.mem_cons_of_mem x hz)
            · intro z hz
              rcases List.mem_cons.mp hz with rfl | hz
              · exact hle _ (List.mem_cons_self _ _)
              · rcases List.mem_cons.mp hz with rfl | hz
                · exact le_trans (le_of_not_lt hk) (hle _ (List.mem_cons_self _ _))
                · exact hle z (List.mem_cons_of_mem _ (hys ▸ hz))

theorem memberIds_pairwise {regs : List Reg} {evals : List Eval} {rid : String}
    (hsorted : evals.Pairwise (fun a b => a.id < b.id)) :
    (memberIds regs evals rid).Pairwise (· < ·) := by
  unfold memberIds
  rw [List.pairwise_map]
  exact hsorted.filter _

theorem memberIds_ne_nil {regs : List Reg} {evals : List Eval} {rid : String}
    (h : rid ∈ bucketIds regs evals) : memberIds regs evals rid ≠ [] := by
  unfold bucketIds at h
  rw [mem_dedupFirst] at h
  rcases List.mem_map.mp h with ⟨e, he, hroot⟩
  unfold memberIds
  intro hemp
  have hmem : e ∈ evals.filter (fun e => root_id regs e.id == rid) :=
    List.mem_filter.mpr ⟨he, by simp [hroot]⟩
  have hmem2 : e.id ∈ (evals.filter (fun e => root_id regs e.id == rid)).map (·.id) :=
    List.mem_map_of_mem _ hmem
  rw [hemp] at hmem2
  cases hmem2

/-- C5.  Under the evaluation order (ascending, duplicate-free indicator
ids, as produced by `ORDER BY indicator_id`), every bucket has exactly one
member flagged as representative (`mid == rep_id` holds for exactly one
member), and that member attains the largest `abs(z20)` (undefined z20
counted as 0) with ties resolved to the lexicographically smallest
indicator id; in particular, when no member has a defined z20 all keys are
0 and the lexicographically smallest member is chosen. -/
theorem compute_snapshot_representative_spec (regs : List Reg) (evals : List Eval)
    (hsorted : evals.Pairwise (fun a b => a.id < b.id)) :
    ∀ rid ∈ bucketIds regs evals,
      ∃ rep, representative_by_bucket regs evals rid = some rep ∧
        (memberIds regs evals rid).count rep = 1 ∧
        (∀ m ∈ memberIds regs evals rid, z_by_id evals m ≤ z_by_id evals rep) ∧
        (∀ m ∈ memberIds regs evals rid,
          z_by_id evals m = z_by_id evals rep → rep ≤ m) := by
  intro rid hrid
  have hne := memberIds_ne_nil hrid
  have hpw := @memberIds_pairwise regs evals rid hsorted
  cases hmem : memberIds regs evals rid with
  | nil => exact absurd hmem hne
  | cons x xs =>
      rcases pyMaxBy_spec (z_by_id evals) xs x with ⟨l₁, l₂, r, hdec, hmax, hl₁, hle⟩
      rw [hmem] at hpw
      rw [hdec] at hpw
      have hnodup : (l₁ ++ r :: l₂).Nodup := hpw.imp (fun h => ne_of_lt h)
      have hrl₂ : ∀ m ∈ l₂, r < m := by
        have := (List.pairwise_append.mp hpw).2.1
        exact (List.pairwise_cons.mp this).1
      refine ⟨r, ?_, ?_, ?_, ?_⟩
      · unfold representative_by_bucket
        rw [hmem]
        exact hmax
      · rw [hdec]
        exact List.count_eq_one_of_mem hnodup
          (List.mem_append.mpr (Or.inr (List.mem_cons_self r l₂)))
      · intro m hm
        exact hle m hm
      · intro m hm heq
        rw [hdec] at hm
        rcases List.mem_append.mp hm with hm | hm
        · exact absurd heq (ne_of_lt (hl₁ m hm))
        · rcases List.mem_cons.mp hm with rfl | hm
          · exact le_refl _
          · exact le_of_lt (hrl₂ m hm)

/-- Witness for C5 at a concrete input: bucket root `a` with members `a`
(no z) and `b` (z20 = 2, duplicates_of = a). -/
theorem compute_snapshot_representative_spec_witness :
    ∃ rep, representative_by_bucket
          [⟨"a", "floor", none⟩, ⟨"b", "floor", some "a"⟩]
          [⟨"a", 1, none, ["S"], none, none, none⟩, ⟨"b", 1, some 2, ["T"], none, none, none⟩]
          "a" = some rep ∧
        (memberIds [⟨"a", "floor", none⟩, ⟨"b", "floor", some "a"⟩]
          [⟨"a", 1, none, ["S"], none, none, none⟩, ⟨"b", 1, some 2, ["T"], none, none, none⟩]
          "a").count rep = 1 ∧
        (∀ m ∈ memberIds [⟨"a", "floor", none⟩, ⟨"b", "floor", some "a"⟩]
            [⟨"a", 1, none, ["S"], none, none, none⟩, ⟨"b", 1, some 2, ["T"], none, none, none⟩]
            "a",
          z_by_id [⟨"a", 1, none, ["S"], none, none, none⟩,
              ⟨"b", 1, some 2, ["T"], none, none, none⟩] m ≤
            z_by_id [⟨"a", 1, none, ["S"], none, none, none⟩,
              ⟨"b", 1, some 2, ["T"], none, none, none⟩] rep) ∧
        (∀ m ∈ memberIds [⟨"a", "floor", none⟩, ⟨"b", "floor", some "a"⟩]
            [⟨"a", 1, none, ["S"], none, none, none⟩, ⟨"b", 1, some 2, ["T"], none, none, none⟩]
            "a",
          z_by_id [⟨"a", 1, none, ["S"], none, none, none⟩,
              ⟨"b", 1, some 2, ["T"], none, none, none⟩] m =
            z_by_id [⟨"a", 1, none, ["S"], none, none, none⟩,
              ⟨"b", 1, some 2, ["T"], none, none, none⟩] rep → rep ≤ m) :=
  compute_snapshot_representative_spec
    [⟨"a", "floor", none⟩, ⟨"b", "floor", some "a"⟩]
    [⟨"a", 1, none, ["S"], none, none, none⟩, ⟨"b", 1, some 2, ["T"], none, none, none⟩]
    (by
      refine List.pairwise_cons.mpr ⟨?_, List.pairwise_singleton _ _⟩
      intro e he
      rcases List.mem_singleton.mp he with rfl
      show ("a" : String) < "b"
      simp [List.lt_iff_lex_lt]
      exact List.Lex.rel (by decide))
    "a" (by decide)

/-! ## Snapshot persistence: top-K evidence and frozen inputs
(src/app/snapshot.py lines 777-796 and 830-885) -/

/-- The `z_abs` sort key of `compute_snapshot` (lines 792-794). -/
def z_abs (e : Eval) : ℚ :=
  match e.z20 with
  | none => 0
  | some z => |z|

/-- The `reps` list: one representative row per bucket, in bucket order
(lines 784-790). -/
def repsList (regs : List Reg) (evals : List Eval) : List Eval :=
  (bucketIds regs evals).filterMap
    (fun rid => (representative_by_bucket regs evals rid).bind
      (fun mid => evals.find? (fun e => e.id == mid)))

/-- `indicators_sorted = sorted(reps, key=z_abs, reverse=True)[:k]`
(line 796). -/
def indicators_sorted (regs : List Reg) (evals : List Eval) (k : Nat) : List Eval :=
  (sortDescBy z_abs (repsList regs evals)).take k

/-- One row of the persisted `FrozenInputs.inputs_json` list. -/
structure FrozenItem where
  indicator_id : String
  series_id : String
  vintage_id : Option Nat
  observation_date : Option Nat
deriving DecidableEq

/-- The frozen items contributed by one evidence row (lines 833-856): one
item per entry of the provenance `inputs` map when it exists, otherwise one
item per provenance series. -/
def frozenItemsOfRow (row : Eval) : List FrozenItem :=
  match row.provInputs with
  | some m => m.map (fun x => ⟨row.id, x.1, x.2.1, x.2.2⟩)
  | none => row.provSeries.map (fun sid => ⟨row.id, sid, row.provVintage, row.provObs⟩)

/-- The `frozen_items` list persisted as `FrozenInputs`: built only from
`indicators_sorted` (the top-K representative rows). -/
def frozen_items (regs : List Reg) (evals : List Eval) (k : Nat) : List FrozenItem :=
  (indicators_sorted regs evals k).flatMap frozenItemsOfRow

/-- The ids persisted as `SnapshotIndicator` rows: one per evaluated
indicator (lines 872-884). -/
def snapshot_indicator_ids (evals : List Eval) : List String :=
  evals.map (·.id)

theorem frozenItemsOfRow_id {row : Eval} {item : FrozenItem}
    (h : item ∈ frozenItemsOfRow row) : item.indicator_id = row.id := by
  unfold frozenItemsOfRow at h
  cases hrow : row.provInputs with
  | some m =>
      rw [hrow] at h
      rcases List.mem_map.mp h with ⟨x, _, rfl⟩
      rfl
  | none =>
      rw [hrow] at h
      rcases List.mem_map.mp h with ⟨sid, _, rfl⟩
      rfl

/-- C10.  FrozenInputs rows are derived only from the top-K representative
rows: every persisted frozen-inputs indicator id belongs to the sorted,
truncated representative list (which is sorted descending by `abs(z20)`,
z-unknown as 0) and hence names a bucket representative; every evaluated
indicator gets a persisted SnapshotIndicator row; and evaluated indicators
outside the top-K list never appear in the frozen-inputs list. -/
theorem compute_snapshot_frozen_inputs_spec (regs : List Reg) (evals : List Eval)
    (k : Nat) :
    (∀ item ∈ frozen_items regs evals k,
        item.indicator_id ∈ (indicators_sorted regs evals k).map (·.id) ∧
        item.indicator_id ∈ (repsList regs evals).map (·.id)) ∧
    (indicators_sorted regs evals k).Pairwise (fun a b => z_abs b ≤ z_abs a) ∧
    (∀ e ∈ evals, e.id ∈ snapshot_indicator_ids evals) ∧
    (∀ e ∈ evals, e.id ∉ (indicators_sorted regs evals k).map (·.id) →
        ∀ item ∈ frozen_items regs evals k, item.indicator_id ≠ e.id) := by
  have hsub : ∀ row ∈ indicators_sorted regs evals k, row ∈ repsList regs evals := by
    intro row hrow
    have h1 : row ∈ sortDescBy z_abs (repsList regs evals) :=
      List.mem_of_mem_take hrow
    exact (mem_sortDescBy z_abs _ row).mp h1
  have hitem : ∀ item ∈ frozen_items regs evals k,
      item.indicator_id ∈ (indicators_sorted regs evals k).map (·.id) ∧
      item.indicator_id ∈ (repsList regs evals).map (·.id) := by
    intro item hitem
    rcases List.mem_flatMap.mp hitem with ⟨row, hrow, hin⟩
    have hid := frozenItemsOfRow_id hin
    constructor
    · rw [hid]
      exact List.mem_map_of_mem _ hrow
    · rw [hid]
      exact List.mem_map_of_mem _ (hsub row hrow)
  refine ⟨hitem, ?_, ?_, ?_⟩
  · exact (sortDescBy_pairwise z_abs (repsList regs evals)).sublist
      (List.take_sublist k _)
  · intro e he
    exact List.mem_map_of_mem _ he
  · intro e _ hnot item hit
    intro heq
    have := (hitem item hit).1
    rw [heq] at this
    exact hnot this

/-! ## Indicator evaluator, `qt_pace` branch
(src/app/snapshot.py, `compute_indicator_status` lines 220-307) -/

/-- A row of the `qt_caps` table (src/app/models.py): `effective_date` is
the primary key. -/
structure CapRow where
  effective_date : Nat
  ust_cap_usd_week : ℚ
  mbs_cap_usd_week : ℚ
deriving DecidableEq

/-- The `usd` helper of the qt_pace branch:
`float(value_numeric) * float(scale or 1.0)` — a zero (falsy) scale falls
back to 1. -/
def qtUsd (r : SeriesRow) : ℚ :=
  r.value_numeric * (if r.scale = 0 then 1 else r.scale)

/-- The cap lookup
`query(QTCap).filter(effective_date <= obs).order_by(desc).first()`:
the eligible row with the greatest effective date (`None` when no row is
eligible). -/
def latestCap (caps : List CapRow) (obs : Nat) : Option CapRow :=
  pyMaxBy (fun c => c.effective_date)
    (caps.filter (fun c => decide (c.effective_date ≤ obs)))

/-- Embedding of the `qt_pace` branch of `compute_indicator_status`: the
returned `(status string, contribution)` pair.  The points lists are the
query results for `WSHOSHO` and `WSHOMCB` (ascending, at most 2 rows), so
`pts[-1]` and `pts[-2]` are the first two elements of the reversed lists. -/
def compute_indicator_status_qt_pace (ustPts mbsPts : List SeriesRow)
    (caps : List CapRow) : String × ℚ :=
  if ustPts.length < 2 ∨ mbsPts.length < 2 then ("n/a", 0)
  else
    match ustPts.reverse, mbsPts.reverse with
    | uL :: uP :: _, mL :: mP :: _ =>
        let ust_runoff := max 0 (-(qtUsd uL - qtUsd uP))
        let mbs_runoff := max 0 (-(qtUsd mL - qtUsd mP))
        match latestCap caps uL.observation_date with
        | none => ("n/a", 0)
        | some cap =>
            if cap.ust_cap_usd_week ≤ ust_runoff ∨ cap.mbs_cap_usd_week ≤ mbs_runoff then
              ("-1", -1)
            else ("0", 0)
    | _, _ => ("n/a", 0)

theorem latestCap_none_iff (caps : List CapRow) (obs : Nat) :
    latestCap caps obs = none ↔ ∀ c ∈ caps, ¬(c.effective_date ≤ obs) := by
  unfold latestCap
  cases hfil : caps.filter (fun c => decide (c.effective_date ≤ obs)) with
  | nil =>
      simp only [pyMaxBy, true_iff]
      intro c hc hle
      have : c ∈ caps.filter (fun c => decide (c.effective_date ≤ obs)) :=
        List.mem_filter.mpr ⟨hc, by simpa using hle⟩
      rw [hfil] at this
      cases this
  | cons x xs =>
      simp only [pyMaxBy]
      constructor
      · intro h
        cases h
      · intro hall
        have hx : x ∈ caps.filter (fun c => decide (c.effective_date ≤ obs)) := by
          rw [hfil]
          exact List.mem_cons_self x xs
        rcases List.mem_filter.mp hx with ⟨hxc, hxle⟩
        exact absurd (by simpa using hxle) (hall x hxc)

theorem latestCap_some_spec {caps : List CapRow} {obs : Nat} {cap : CapRow}
    (h : latestCap caps obs = some cap) :
    cap ∈ caps ∧ cap.effective_date ≤ obs ∧
      ∀ c ∈ caps, c.effective_date ≤ obs → c.effective_date ≤ cap.effective_date := by
  unfold latestCap at h
  cases hfil : caps.filter (fun c => decide (c.effective_date ≤ obs)) with
  | nil =>
      rw [hfil] at h
      cases h
  | cons x xs =>
      rw [hfil] at h
      rcases pyMaxBy_spec (fun c : CapRow => c.effective_date) xs x with
        ⟨l₁, l₂, r, hdec, hmax, _, hle⟩
      rw [hmax] at h
      injection h with hr
      have hrmem : cap ∈ x :: xs := by
        rw [← hr, hdec]
        exact List.mem_append.mpr (Or.inr (List.mem_cons_self _ _))
      rw [hr] at hle
      have hcapfil : cap ∈ caps.filter (fun c => decide (c.effective_date ≤ obs)) := by
        rw [hfil]
        exact hrmem
      rcases List.mem_filter.mp hcapfil with ⟨hcmem, hcle⟩
      refine ⟨hcmem, by simpa using hcle, ?_⟩
      intro c hc hcle2
      have hcfil : c ∈ caps.filter (fun c => decide (c.effective_date ≤ obs)) :=
        List.mem_filter.mpr ⟨hc, by simpa using hcle2⟩
      rw [hfil] at hcfil
      exact hle c hcfil

/-- C6.  With at least two points for each of WSHOSHO and WSHOMCB, qt_pace
computes `runoff = max(0, -delta)` from the latest two scaled weekly values,
looks up the most recent QTCap whose effective date does not exceed the
latest observation date, returns status `-1` exactly when a runoff reaches
its cap and `0` otherwise, and returns `n/a` with contribution 0 when no
cap is applicable. -/
theorem compute_indicator_status_qt_pace_spec (ustPts mbsPts : List SeriesRow)
    (caps : List CapRow) (uL uP mL mP : SeriesRow) (ur mr : List SeriesRow)
    (hu : ustPts.reverse = uL :: uP :: ur) (hm : mbsPts.reverse = mL :: mP :: mr) :
    (latestCap caps uL.observation_date = none →
        compute_indicator_status_qt_pace ustPts mbsPts caps = ("n/a", 0)) ∧
    (∀ cap, latestCap caps uL.observation_date = some cap →
        cap ∈ caps ∧ cap.effective_date ≤ uL.observation_date ∧
        (∀ c ∈ caps, c.effective_date ≤ uL.observation_date →
            c.effective_date ≤ cap.effective_date) ∧
        ((compute_indicator_status_qt_pace ustPts mbsPts caps).1 = "-1" ↔
          cap.ust_cap_usd_week ≤ max 0 (-(qtUsd uL - qtUsd uP)) ∨
          cap.mbs_cap_usd_week ≤ max 0 (-(qtUsd mL - qtUsd mP))) ∧
        ((compute_indicator_status_qt_pace ustPts mbsPts caps).1 = "0" ↔
          ¬(cap.ust_cap_usd_week ≤ max 0 (-(qtUsd uL - qtUsd uP)) ∨
            cap.mbs_cap_usd_week ≤ max 0 (-(qtUsd mL - qtUsd mP)))) ∧
        (compute_indicator_status_qt_pace ustPts mbsPts caps).2 =
          (if cap.ust_cap_usd_week ≤ max 0 (-(qtUsd uL - qtUsd uP)) ∨
              cap.mbs_cap_usd_week ≤ max 0 (-(qtUsd mL - qtUsd mP))
            then -1 else 0)) := by
  have hlu : ustPts.length = ur.length + 2 := by
    have := congrArg List.length hu
    rw [List.length_reverse] at this
    simpa using this
  have hlm : mbsPts.length = mr.length + 2 := by
    have := congrArg List.length hm
    rw [List.length_reverse] at this
    simpa using this
  have hlen : ¬(ustPts.length < 2 ∨ mbsPts.length < 2) := by
    push_neg
    omega
  have hcomp : compute_indicator_status_qt_pace ustPts mbsPts caps =
      (match latestCap caps uL.observation_date with
       | none => ("n/a", 0)
       | some cap =>
          if cap.ust_cap_usd_week ≤ max 0 (-(qtUsd uL - qtUsd uP)) ∨
              cap.mbs_cap_usd_week ≤ max 0 (-(qtUsd mL - qtUsd mP)) then
            (("-1" : String), (-1 : ℚ))
          else (("0" : String), (0 : ℚ))) := by
    unfold compute_indicator_status_qt_pace
    rw [if_neg hlen, hu, hm]
  refine ⟨?_, ?_⟩
  · intro hnone
    rw [hcomp, hnone]
  · intro cap hcap
    rcases latestCap_some_spec hcap with ⟨h1, h2, h3⟩
    have hcomp2 : compute_indicator_status_qt_pace ustPts mbsPts caps =
        (if cap.ust_cap_usd_week ≤ max 0 (-(qtUsd uL - qtUsd uP)) ∨
            cap.mbs_cap_usd_week ≤ max 0 (-(qtUsd mL - qtUsd mP)) then
          (("-1" : String), (-1 : ℚ))
        else (("0" : String), (0 : ℚ))) := by
      rw [hcomp, hcap]
    rw [hcomp2]
    by_cases hat : cap.ust_cap_usd_week ≤ max 0 (-(qtUsd uL - qtUsd uP)) ∨
        cap.mbs_cap_usd_week ≤ max 0 (-(qtUsd mL - qtUsd mP))
    · refine ⟨h1, h2, h3, ?_, ?_, ?_⟩
      · rw [if_pos hat]
        simp only [true_iff]
        exact hat
      · rw [if_pos hat]
        constructor
        · intro hs
          exact absurd hs (by decide)
        · intro hns
          exact absurd hat hns
      · rw [if_pos hat, if_pos hat]
    · refine ⟨h1, h2, h3, ?_, ?_, ?_⟩
      · rw [if_neg hat]
        constructor
        · intro hs
          exact absurd hs (by decide)
        · intro hs
          exact absurd hs hat
      · rw [if_neg hat]
        simp only [true_iff]
        exact hat
      · rw [if_neg hat, if_neg hat]

/-- Concrete rows for the C6 witness: the spec's QT-caps scenario
(WSHOSHO 100 → 90, WSHOMCB 200 → 195, caps 9 and 8). -/
def qtRow (obs : Nat) (v : ℚ) : SeriesRow :=
  { series_id := "W", observation_date := obs, vintage_date := none,
    publication_date := none, fetched_at := obs, vintage_id := 0,
    value_numeric := v, units := "USD", scale := 1, source := "FRED",
    source_url := none, source_version := none }

/-- Witness for C6 at a concrete input. -/
theorem compute_indicator_status_qt_pace_spec_witness :
    (latestCap [⟨1, 9, 8⟩] (qtRow 2 90).observation_date = none →
        compute_indicator_status_qt_pace [qtRow 1 100, qtRow 2 90]
          [qtRow 1 200, qtRow 2 195] [⟨1, 9, 8⟩] = ("n/a", 0)) ∧
    (∀ cap, latestCap [⟨1, 9, 8⟩] (qtRow 2 90).observation_date = some cap →
        cap ∈ ([⟨1, 9, 8⟩] : List CapRow) ∧
        cap.effective_date ≤ (qtRow 2 90).observation_date ∧
        (∀ c ∈ ([⟨1, 9, 8⟩] : List CapRow),
            c.effective_date ≤ (qtRow 2 90).observation_date →
            c.effective_date ≤ cap.effective_date) ∧
        ((compute_indicator_status_qt_pace [qtRow 1 100, qtRow 2 90]
            [qtRow 1 200, qtRow 2 195] [⟨1, 9, 8⟩]).1 = "-1" ↔
          cap.ust_cap_usd_week ≤ max 0 (-(qtUsd (qtRow 2 90) - qtUsd (qtRow 1 100))) ∨
          cap.mbs_cap_usd_week ≤ max 0 (-(qtUsd (qtRow 2 195) - qtUsd (qtRow 1 200)))) ∧
        ((compute_indicator_status_qt_pace [qtRow 1 100, qtRow 2 90]
            [qtRow 1 200, qtRow 2 195] [⟨1, 9, 8⟩]).1 = "0" ↔
          ¬(cap.ust_cap_usd_week ≤ max 0 (-(qtUsd (qtRow 2 90) - qtUsd (qtRow 1 100))) ∨
            cap.mbs_cap_usd_week ≤ max 0 (-(qtUsd (qtRow 2 195) - qtUsd (qtRow 1 200))))) ∧
        (compute_indicator_status_qt_pace [qtRow 1 100, qtRow 2 90]
            [qtRow 1 200, qtRow 2 195] [⟨1, 9, 8⟩]).2 =
          (if cap.ust_cap_usd_week ≤ max 0 (-(qtUsd (qtRow 2 90) - qtUsd (qtRow 1 100))) ∨
              cap.mbs_cap_usd_week ≤ max 0 (-(qtUsd (qtRow 2 195) - qtUsd (qtRow 1 200)))
            then -1 else 0)) :=
  compute_indicator_status_qt_pace_spec [qtRow 1 100, qtRow 2 90]
    [qtRow 1 200, qtRow 2 195] [⟨1, 9, 8⟩]
    (qtRow 2 90) (qtRow 1 100) (qtRow 2 195) (qtRow 1 200) [] []
    rfl rfl

/-! ## Brief verifier: `_verify_brief` (src/app/llm/orchestrator.py lines
32-112).  String scanning is abstracted: a `BriefDoc` carries the results of
the substring checks, the word count, the bullet count after the
`Evidence:` split (`none` when the marker is absent and the split raises),
and the numeric tokens `_normalize_numeric_tokens` extracts from the
markdown; indicator infos carry the tokens extracted from their fields. -/

structure BriefIndicatorInfo where
  latest_value : Option (List ℚ)
  z20 : Option ℚ
  flip_trigger : List ℚ
deriving DecidableEq

structure RegimeNums where
  score : Option ℚ
  max_score : Option ℚ
deriving DecidableEq

structure BriefDoc where
  hasRegimeLine : Bool
  hasEvidenceSection : Bool
  hasInterpretation : Bool
  wordCount : Nat
  evidenceBullets : Option Nat
  numbers : List ℚ
deriving DecidableEq

inductive BriefIssue where
  | missingRegime
  | missingEvidence
  | missingInterpretation
  | tooLong (words : Nat)
  | tooFewBullets (got need : Nat)
  | numberNotInContext (x : ℚ)
deriving DecidableEq

/-- The allowed-number set: regime `score` and `max_score`, then each
indicator's `latest_value` tokens, `z20`, and `flip_trigger` tokens. -/
def allowed_nums (regimen : RegimeNums) (infos : List BriefIndicatorInfo) : List ℚ :=
  (match regimen.score with
   | some s => [s]
   | none => []) ++
  (match regimen.max_score with
   | some s => [s]
   | none => []) ++
  infos.flatMap (fun info =>
    (match info.latest_value with
     | some toks => toks
     | none => []) ++
    (match info.z20 with
     | some z => [z]
     | none => []) ++
    info.flip_trigger)

/-- `abs(f - af) <= 1e-6` against some allowed number. -/
def matchesAllowed (allowed : List ℚ) (f : ℚ) : Bool :=
  allowed.any (fun a => decide (|f - a| ≤ 1 / 1000000))

/-- The numeric-parity loop: flag each number missing from the allowed set,
and stop after the sixth numeric issue (`> 5` guard after appending). -/
def numeric_issues (allowed : List ℚ) : List ℚ → Nat → List BriefIssue
  | [], _ => []
  | f :: fs, cnt =>
      if matchesAllowed allowed f then numeric_issues allowed fs cnt
      else if 5 < cnt + 1 then [BriefIssue.numberNotInContext f]
      else BriefIssue.numberNotInContext f :: numeric_issues allowed fs (cnt + 1)

/-- The section, length and bullet issues of `_verify_brief` (everything
before the numeric-parity loop). -/
def brief_section_issues (doc : BriefDoc) (infos : List BriefIndicatorInfo) :
    List BriefIssue :=
  (if doc.hasRegimeLine then [] else [BriefIssue.missingRegime]) ++
  (if doc.hasEvidenceSection then [] else [BriefIssue.missingEvidence]) ++
  (if doc.hasInterpretation then [] else [BriefIssue.missingInterpretation]) ++
  (if 320 < doc.wordCount then [BriefIssue.tooLong doc.wordCount] else []) ++
  (match doc.evidenceBullets with
   | none => []
   | some b =>
      let expected := if infos.isEmpty then 0 else min infos.length 12
      if expected ≠ 0 ∧ b < max 3 (min expected 12) then
        [BriefIssue.tooFewBullets b (max 3 (min expected 12))]
      else [])

/-- Embedding of `_verify_brief`: the `(ok, issues)` pair.  Every check that
sets `ok = False` appends an issue and conversely, so `ok` is the emptiness
of the issues list. -/
def verify_brief (doc : BriefDoc) (infos : List BriefIndicatorInfo)
    (regimen : RegimeNums) : Bool × List BriefIssue :=
  let issues := brief_section_issues doc infos ++
    numeric_issues (allowed_nums regimen infos) doc.numbers 0
  (issues.isEmpty, issues)

def isNumericIssue : BriefIssue → Bool
  | BriefIssue.numberNotInContext _ => true
  | _ => false

def isBulletIssue : BriefIssue → Bool
  | BriefIssue.tooFewBullets _ _ => true
  | _ => false

theorem numeric_issues_eq_nil_iff (allowed : List ℚ) :
    ∀ (fs : List ℚ) (cnt : Nat),
      numeric_issues allowed fs cnt = [] ↔ ∀ f ∈ fs, matchesAllowed allowed f = true := by
  intro fs
  induction fs with
  | nil => intro cnt; simp [numeric_issues]
  | cons f fs ih =>
      intro cnt
      unfold numeric_issues
      by_cases hm : matchesAllowed allowed f = true
      · rw [if_pos hm, ih]
        constructor
        · intro hall g hg
          rcases List.mem_cons.mp hg with rfl | hg
          · exact hm
          · exact hall g hg
        · intro hall g hg
          exact hall g (List.mem_cons_of_mem f hg)
      · rw [if_neg hm]
        by_cases hc : 5 < cnt + 1
        · rw [if_pos hc]
          constructor
          · intro h
            cases h
          · intro hall
            exact absurd (hall f (List.mem_cons_self f fs)) hm
        · rw [if_neg hc]
          constructor
          · intro h
            cases h
          · intro hall
            exact absurd (hall f (List.mem_cons_self f fs)) hm

theorem numeric_issues_all_numeric (allowed : List ℚ) :
    ∀ (fs : List ℚ) (cnt : Nat) (i : BriefIssue),
      i ∈ numeric_issues allowed fs cnt → isNumericIssue i = true := by
  intro fs
  induction fs with
  | nil => intro cnt i h; cases h
  | cons f fs ih =>
      intro cnt i h
      unfold numeric_issues at h
      by_cases hm : matchesAllowed allowed f = true
      · rw [if_pos hm] at h
        exact ih cnt i h
      · rw [if_neg hm] at h
        by_cases hc : 5 < cnt + 1
        · rw [if_pos hc] at h
          rcases List.mem_singleton.mp h with rfl
          rfl
        · rw [if_neg hc] at h
          rcases List.mem_cons.mp h with rfl | h
          · rfl
          · exact ih (cnt + 1) i h

/-- Membership of a flagged number under the six-issue cap. -/
theorem numeric_issues_mem (allowed : List ℚ) :
    ∀ (fs : List ℚ) (cnt : Nat),
      cnt + fs.countP (fun f => !matchesAllowed allowed f) ≤ 6 →
      ∀ f ∈ fs, matchesAllowed allowed f = false →
        BriefIssue.numberNotInContext f ∈ numeric_issues allowed fs cnt := by
  intro fs
  induction fs with
  | nil => intro cnt _ f hf; cases hf
  | cons g fs ih =>
      intro cnt hcap f hf hunm
      unfold numeric_issues
      by_cases hm : matchesAllowed allowed g = true
      · rw [if_pos hm]
        rcases List.mem_cons.mp hf with rfl | hf
        · rw [hm] at hunm
          cases hunm
        · have hcap2 : cnt + fs.countP (fun f => !matchesAllowed allowed f) ≤ 6 := by
            rw [List.countP_cons] at hcap
            simp [hm] at hcap
            omega
          exact ih cnt hcap2 f hf hunm
      · have hmf : matchesAllowed allowed g = false := Bool.eq_false_iff.mpr hm
        rw [if_neg hm]
        have hcnt : cnt + 1 + fs.countP (fun f => !matchesAllowed allowed f) ≤ 6 := by
          rw [List.countP_cons] at hcap
          simp [hmf] at hcap
          omega
        by_cases hc : 5 < cnt + 1
        · rw [if_pos hc]
          rcases List.mem_cons.mp hf with rfl | hf
          · exact List.mem_singleton_self _
          · exfalso
            have hpos : 0 < fs.countP (fun f => !matchesAllowed allowed f) := by
              rw [List.countP_pos_iff]
              exact ⟨f, hf, by simp [hunm]⟩
            omega
        · rw [if_neg hc]
          rcases List.mem_cons.mp hf with rfl | hf
          · exact List.mem_cons_self _ _
          · exact List.mem_cons_of_mem _ (ih (cnt + 1) hcnt f hf hunm)

theorem brief_section_issues_not_numeric (doc : BriefDoc)
    (infos : List BriefIndicatorInfo) :
    ∀ i ∈ brief_section_issues doc infos, isNumericIssue i = false := by
  intro i hi
  unfold brief_section_issues at hi
  simp only [List.mem_append] at hi
  rcases hi with ((((hi | hi) | hi) | hi) | hi)
  · by_cases h : doc.hasRegimeLine
    · rw [if_pos h] at hi
      cases hi
    · rw [if_neg h] at hi
      rcases List.mem_singleton.mp hi with rfl
      rfl
  · by_cases h : doc.hasEvidenceSection
    · rw [if_pos h] at hi
      cases hi
    · rw [if_neg h] at hi
      rcases List.mem_singleton.mp hi with rfl
      rfl
  · by_cases h : doc.hasInterpretation
    · rw [if_pos h] at hi
      cases hi
    · rw [if_neg h] at hi
      rcases List.mem_singleton.mp hi with rfl
      rfl
  · by_cases h : 320 < doc.wordCount
    · rw [if_pos h] at hi
      rcases List.mem_singleton.mp hi with rfl
      rfl
    · rw [if_neg h] at hi
      cases hi
  · cases hb : doc.evidenceBullets with
    | none =>
        rw [hb] at hi
        replace hi : i ∈ ([] : List BriefIssue) := hi
        cases hi
    | some b =>
        rw [hb] at hi
        replace hi : i ∈ (if (if infos.isEmpty then 0 else min infos.length 12) ≠ 0 ∧
            b < max 3 (min (if infos.isEmpty then 0 else min infos.length 12) 12) then
            [BriefIssue.tooFewBullets b
              (max 3 (min (if infos.isEmpty then 0 else min infos.length 12) 12))]
          else []) := hi
        by_cases h : (if infos.isEmpty then 0 else min infos.length 12) ≠ 0 ∧
            b < max 3 (min (if infos.isEmpty then 0 else min infos.length 12) 12)
        · rw [if_pos h] at hi
          rcases List.mem_singleton.mp hi with rfl
          rfl
        · rw [if_neg h] at hi
          cases hi

theorem verify_brief_snd (doc : BriefDoc) (infos : List BriefIndicatorInfo)
    (regimen : RegimeNums) :
    (verify_brief doc infos regimen).2 = brief_section_issues doc infos ++
      numeric_issues (allowed_nums regimen infos) doc.numbers 0 := rfl

theorem verify_brief_fst (doc : BriefDoc) (infos : List BriefIndicatorInfo)
    (regimen : RegimeNums) :
    (verify_brief doc infos regimen).1 = (verify_brief doc infos regimen).2.isEmpty := rfl

theorem verify_brief_numeric_part (doc : BriefDoc) (infos : List BriefIndicatorInfo)
    (regimen : RegimeNums) :
    (verify_brief doc infos regimen).2.filter isNumericIssue =
      numeric_issues (allowed_nums regimen infos) doc.numbers 0 := by
  rw [verify_brief_snd, List.filter_append]
  rw [List.filter_eq_nil_iff.mpr
    (fun a ha => by simp [brief_section_issues_not_numeric doc infos a ha]),
    List.nil_append]
  apply List.filter_eq_self.mpr
  intro i hi
  exact numeric_issues_all_numeric _ _ _ _ hi

theorem matchesAllowed_iff (allowed : List ℚ) (f : ℚ) :
    matchesAllowed allowed f = true ↔ ∃ a ∈ allowed, |f - a| ≤ 1 / 1000000 := by
  unfold matchesAllowed
  rw [List.any_eq_true]
  simp

/-- C7, amended.  The verifier reports no numeric-parity issue exactly when
every number token of the markdown is within 1e-6 of some number of the
allowed set built from the regime score, max_score and the tokens of each
indicator's latest_value, z20 and flip_trigger; an `ok` verdict implies
that parity; every number outside the allowed set forces a not-ok verdict;
and such a number produces the issue `number not in snapshot context: X`
whenever at most six numbers are outside the allowed set (the code stops
recording numeric-parity issues after the sixth). -/
theorem verify_brief_numeric_parity_spec (doc : BriefDoc)
    (infos : List BriefIndicatorInfo) (regimen : RegimeNums) :
    ((verify_brief doc infos regimen).2.filter isNumericIssue = [] ↔
      ∀ f ∈ doc.numbers, ∃ a ∈ allowed_nums regimen infos, |f - a| ≤ 1 / 1000000) ∧
    ((verify_brief doc infos regimen).1 = true →
      ∀ f ∈ doc.numbers, ∃ a ∈ allowed_nums regimen infos, |f - a| ≤ 1 / 1000000) ∧
    (∀ f ∈ doc.numbers, ¬(∃ a ∈ allowed_nums regimen infos, |f - a| ≤ 1 / 1000000) →
      (verify_brief doc infos regimen).1 = false) ∧
    (doc.numbers.countP (fun f => !matchesAllowed (allowed_nums regimen infos) f) ≤ 6 →
      ∀ f ∈ doc.numbers, ¬(∃ a ∈ allowed_nums regimen infos, |f - a| ≤ 1 / 1000000) →
        BriefIssue.numberNotInContext f ∈ (verify_brief doc infos regimen).2) := by
  have hiff : (verify_brief doc infos regimen).2.filter isNumericIssue = [] ↔
      ∀ f ∈ doc.numbers, ∃ a ∈ allowed_nums regimen infos, |f - a| ≤ 1 / 1000000 := by
    rw [verify_brief_numeric_part, numeric_issues_eq_nil_iff]
    constructor
    · intro h f hf
      exact (matchesAllowed_iff _ f).mp (h f hf)
    · intro h f hf
      exact (matchesAllowed_iff _ f).mpr (h f hf)
  refine ⟨hiff, ?_, ?_, ?_⟩
  · intro hok
    rw [verify_brief_fst, List.isEmpty_iff] at hok
    apply hiff.mp
    rw [hok]
    rfl
  · intro f hf hno
    cases hok : (verify_brief doc infos regimen).1 with
    | false => rfl
    | true =>
        exfalso
        rw [verify_brief_fst, List.isEmpty_iff] at hok
        have := hiff.mp (by rw [hok]; rfl)
        exact hno (this f hf)
  · intro hcap f hf hno
    have hunm : matchesAllowed (allowed_nums regimen infos) f = false :=
      Bool.eq_false_iff.mpr (fun h => hno ((matchesAllowed_iff _ f).mp h))
    rw [verify_brief_snd]
    apply List.mem_append_right
    exact numeric_issues_mem _ doc.numbers 0 (by simpa using hcap) f hf hunm

/-- A brief document with seven numbers, none of them allowed. -/
def c7doc : BriefDoc :=
  { hasRegimeLine := true, hasEvidenceSection := true, hasInterpretation := true,
    wordCount := 10, evidenceBullets := none, numbers := [1, 2, 3, 4, 5, 6, 7] }

/-- C7 as stated is false: with seven numbers outside the (empty) allowed
set, the seventh produces no `number not in snapshot context` issue - the
loop stops recording after six. -/
theorem verify_brief_numeric_cap_counterexample :
    (7 : ℚ) ∈ c7doc.numbers ∧
    allowed_nums ⟨none, none⟩ [] = [] ∧
    BriefIssue.numberNotInContext 7 ∉ (verify_brief c7doc [] ⟨none, none⟩).2 := by
  refine ⟨by decide, rfl, ?_⟩
  decide

theorem brief_section_issues_bullet_part (doc : BriefDoc)
    (infos : List BriefIndicatorInfo) (b : Nat) (hb : doc.evidenceBullets = some b) :
    (brief_section_issues doc infos).filter isBulletIssue =
      (if (if infos.isEmpty then 0 else min infos.length 12) ≠ 0 ∧
          b < max 3 (min (if infos.isEmpty then 0 else min infos.length 12) 12) then
        [BriefIssue.tooFewBullets b
          (max 3 (min (if infos.isEmpty then 0 else min infos.length 12) 12))]
      else []) := by
  unfold brief_section_issues
  rw [List.filter_append, List.filter_append, List.filter_append, List.filter_append]
  have hflag : ∀ (c : Prop) (inst : Decidable c) (i : BriefIssue), isBulletIssue i = false →
      (if c then ([] : List BriefIssue) else [i]).filter isBulletIssue = [] := by
    intro c inst i hi
    by_cases h : c
    · rw [if_pos h]
      rfl
    · rw [if_neg h]
      simp [List.filter_cons, hi]
  rw [hflag _ _ BriefIssue.missingRegime rfl, hflag _ _ BriefIssue.missingEvidence rfl,
    hflag _ _ BriefIssue.missingInterpretation rfl]
  have hlong : (if 320 < doc.wordCount then [BriefIssue.tooLong doc.wordCount]
      else ([] : List BriefIssue)).filter isBulletIssue = [] := by
    by_cases h : 320 < doc.wordCount
    · rw [if_pos h]
      rfl
    · rw [if_neg h]
      rfl
  rw [hlong, hb]
  simp only [List.nil_append]
  show (if (if infos.isEmpty then 0 else min infos.length 12) ≠ 0 ∧
      b < max 3 (min (if infos.isEmpty then 0 else min infos.length 12) 12) then
      [BriefIssue.tooFewBullets b
        (max 3 (min (if infos.isEmpty then 0 else min infos.length 12) 12))]
    else []).filter isBulletIssue = _
  by_cases h : (if infos.isEmpty then 0 else min infos.length 12) ≠ 0 ∧
      b < max 3 (min (if infos.isEmpty then 0 else min infos.length 12) 12)
  · rw [if_pos h]
    rfl
  · rw [if_neg h]
    rfl

/-- C8, amended.  For a brief over `N >= 1` indicators whose markdown
contains the `Evidence:` marker, the evidence-bullet check accepts (no
too-few-bullets issue) exactly when the bullet count is at least
`max(3, min(N, 12))` - not `min(3, min(N, 12))` as claimed - and a smaller
count yields a too-few-bullets issue and a not-ok verdict. -/
theorem verify_brief_bullet_threshold_spec (doc : BriefDoc)
    (infos : List BriefIndicatorInfo) (regimen : RegimeNums) (b : Nat)
    (hN : 1 ≤ infos.length) (hb : doc.evidenceBullets = some b) :
    ((verify_brief doc infos regimen).2.filter isBulletIssue = [] ↔
      max 3 (min infos.length 12) ≤ b) ∧
    (b < max 3 (min infos.length 12) →
      (verify_brief doc infos regimen).1 = false ∧
      BriefIssue.tooFewBullets b (max 3 (min infos.length 12)) ∈
        (verify_brief doc infos regimen).2) := by
  have hne : infos.isEmpty = false := by
    cases infos with
    | nil => simp at hN
    | cons a l => rfl
  have hexp : (if infos.isEmpty then 0 else min infos.length 12) = min infos.length 12 := by
    rw [hne]
    rfl
  have hmm : min (min infos.length 12) 12 = min infos.length 12 := by omega
  have hcond : ((if infos.isEmpty then 0 else min infos.length 12) ≠ 0 ∧
      b < max 3 (min (if infos.isEmpty then 0 else min infos.length 12) 12)) ↔
      b < max 3 (min infos.length 12) := by
    rw [hexp, hmm]
    constructor
    · intro h
      exact h.2
    · intro h
      exact ⟨by omega, h⟩
  have hpart : (verify_brief doc infos regimen).2.filter isBulletIssue =
      (if b < max 3 (min infos.length 12) then
        [BriefIssue.tooFewBullets b (max 3 (min infos.length 12))]
      else []) := by
    rw [verify_brief_snd, List.filter_append, brief_section_issues_bullet_part doc infos b hb]
    have hnum : (numeric_issues (allowed_nums regimen infos) doc.numbers 0).filter
        isBulletIssue = [] := by
      apply List.filter_eq_nil_iff.mpr
      intro a ha
      have hnis := numeric_issues_all_numeric _ _ _ _ ha
      cases a with
      | numberNotInContext x => simp [isBulletIssue]
      | missingRegime => cases hnis
      | missingEvidence => cases hnis
      | missingInterpretation => cases hnis
      | tooLong w => cases hnis
      | tooFewBullets g n => cases hnis
    rw [hnum, List.append_nil]
    by_cases h : b < max 3 (min infos.length 12)
    · rw [if_pos (hcond.mpr h), if_pos h, hexp, hmm]
    · rw [if_neg (fun hc => h (hcond.mp hc)), if_neg h]
  constructor
  · rw [hpart]
    by_cases h : b < max 3 (min infos.length 12)
    · rw [if_pos h]
      constructor
      · intro hc
        cases hc
      · intro hle
        omega
    · rw [if_neg h]
      simp only [true_iff]
      omega
  · intro hlt
    have hmem : BriefIssue.tooFewBullets b (max 3 (min infos.length 12)) ∈
        (verify_brief doc infos regimen).2.filter isBulletIssue := by
      rw [hpart, if_pos hlt]
      exact List.mem_singleton_self _
    constructor
    · rw [verify_brief_fst]
      have hmem2 := List.mem_of_mem_filter hmem
      cases hemp : (verify_brief doc infos regimen).2 with
      | nil =>
          rw [hemp] at hmem2
          cases hmem2
      | cons a l => rfl
    · exact List.mem_of_mem_filter hmem

/-- A brief document with one evidence bullet. -/
def c8doc : BriefDoc :=
  { hasRegimeLine := true, hasEvidenceSection := true, hasInterpretation := true,
    wordCount := 10, evidenceBullets := some 1, numbers := [] }

/-- C8 as stated is false: with one indicator and one bullet the claimed
threshold `min(3, min(1, 12)) = 1` is met, yet the verifier flags
`too few evidence bullets` (its threshold is `max(3, min(N, 12)) = 3`)
and reports not-ok. -/
theorem verify_brief_bullet_min_counterexample :
    min 3 (min ([⟨none, none, []⟩] : List BriefIndicatorInfo).length 12) ≤ 1 ∧
    BriefIssue.tooFewBullets 1 3 ∈ (verify_brief c8doc [⟨none, none, []⟩] ⟨none, none⟩).2 ∧
    (verify_brief c8doc [⟨none, none, []⟩] ⟨none, none⟩).1 = false := by
  refine ⟨by decide, ?_, ?_⟩
  · decide
  · decide

/-- A brief document with five evidence bullets, for the C8 witness. -/
def c8wdoc : BriefDoc :=
  { hasRegimeLine := true, hasEvidenceSection := true, hasInterpretation := true,
    wordCount := 10, evidenceBullets := some 5, numbers := [] }

/-- Witness for C8 at a concrete input: four indicators and five bullets. -/
theorem verify_brief_bullet_threshold_spec_witness :
    ((verify_brief c8wdoc [⟨none, none, []⟩, ⟨none, none, []⟩, ⟨none, none, []⟩,
        ⟨none, none, []⟩] ⟨none, none⟩).2.filter isBulletIssue = [] ↔
      max 3 (min ([⟨none, none, []⟩, ⟨none, none, []⟩, ⟨none, none, []⟩,
        ⟨none, none, []⟩] : List BriefIndicatorInfo).length 12) ≤ 5) ∧
    (5 < max 3 (min ([⟨none, none, []⟩, ⟨none, none, []⟩, ⟨none, none, []⟩,
        ⟨none, none, []⟩] : List BriefIndicatorInfo).length 12) →
      (verify_brief c8wdoc [⟨none, none, []⟩, ⟨none, none, []⟩, ⟨none, none, []⟩,
        ⟨none, none, []⟩] ⟨none, none⟩).1 = false ∧
      BriefIssue.tooFewBullets 5 (max 3 (min ([⟨none, none, []⟩, ⟨none, none, []⟩,
        ⟨none, none, []⟩, ⟨none, none, []⟩] : List BriefIndicatorInfo).length 12)) ∈
        (verify_brief c8wdoc [⟨none, none, []⟩, ⟨none, none, []⟩, ⟨none, none, []⟩,
          ⟨none, none, []⟩] ⟨none, none⟩).2) :=
  verify_brief_bullet_threshold_spec c8wdoc
    [⟨none, none, []⟩, ⟨none, none, []⟩, ⟨none, none, []⟩, ⟨none, none, []⟩]
    ⟨none, none⟩ 5 (by decide) rfl

end InvestAgent
